import Mathlib

set_option maxRecDepth 100000

/-!
Verification of the pmpi core (decentralized identifier registry over a
proof-of-work block tree) against its specification.

The development shallowly embeds the Python sources:

* `utils.py` (codec primitives, `double_sha`),
* `operation.py` (`Operation`, its serialization and verification),
* `block.py` (`Block`, mining, serialization, verification, put),
* `blockchain.py` (`BlockChain`: the in-memory tree, `__set_head`,
  `update_blocks`, the constructor scan and BFS),
* `abstract.py` / the signed-object persistence contract
  (`put`, `is_in_database`), and `identifier.py` (`put` / `remove`).

External library calls (hashlib's SHA-256 and ecdsa's signature check) are
modelled as explicit function parameters (`sha`, `ec`): the embedded code
composes them exactly as the source does, and concrete executable stand-ins
instantiate them in witnesses.

The repository snapshot mixes file revisions: `blockchain.py`,
`operation.py`, `utils.py`, `public_key.py` and the test suite belong to the
current revision, while `block.py`, `identifier.py` and `abstract.py` are
stale earlier revisions (they import modules that no longer exist, e.g.
`src.pmpi.revision`, and lack the API the rest of the code calls:
`from_obj`, `.obj`, `.id`, `get_ids_list`, `GenesisBlockDuplication`).
Where the operative definition is missing from the sources (the current
`Block.verify`/`Block.put` and the null-revision `id` accessor), the
definition below is modelled from the spec, as its doc comment states;
everything else is translated from the source files.

Machine integers: Python ints are unbounded, so `Nat`/`Int` model them
directly; 4-byte big-endian fields are written through `be4`, which reduces
modulo 2^32 where `int.to_bytes(4)` would raise `OverflowError` (the
theorems about those fields carry `< 2^32` bounds).
-/

namespace PMPI

/-- Byte strings: lists of naturals (each byte `< 256` where it matters). -/
abbrev Bytes := List Nat

/-- `bytes(32)`: the 32-zero sentinel id. -/
def zeros32 : Bytes := List.replicate 32 0

/-- Big-endian value of a byte string (`int.from_bytes(b, 'big')`). -/
def beVal : Bytes → Nat
  | [] => 0
  | a :: as => a * 256 ^ as.length + beVal as

/-- Big-endian encoding on `n` bytes (`v.to_bytes(n, 'big')`, reduced mod
256^n instead of raising `OverflowError`). -/
def beBytes : Nat → Nat → Bytes
  | 0, _ => []
  | n + 1, v => beBytes n (v / 256) ++ [v % 256]

/-- `v.to_bytes(4, 'big')`. -/
def be4 (v : Nat) : Bytes := beBytes 4 v

/-- Lexicographic strict order on byte strings: Python's `bytes < bytes`. -/
def lexLt : Bytes → Bytes → Bool
  | [], [] => false
  | [], _ :: _ => true
  | _ :: _, [] => false
  | a :: as, b :: bs => a < b || (a == b && lexLt as bs)

/-- Insert into a lexicographically sorted list of byte strings. -/
def insertLex (x : Bytes) : List Bytes → List Bytes
  | [] => [x]
  | y :: r => if lexLt y x then y :: insertLex x r else x :: y :: r

/-- Python's `sorted` on byte strings (stable, lexicographic). -/
def sortLex : List Bytes → List Bytes
  | [] => []
  | x :: r => insertLex x (sortLex r)

/-- `double_sha` from `utils.py`: `sha256(sha256(b).digest()).digest()`,
with the external SHA-256 as the parameter `sha`. -/
def double_sha (sha : Bytes → Bytes) (b : Bytes) : Bytes := sha (sha b)

/-- The external hash is a 32-byte digest: what `hashlib.sha256` guarantees. -/
def HashWf (sha : Bytes → Bytes) : Prop :=
  ∀ b, (sha b).length = 32 ∧ ∀ x ∈ sha b, x < 256

/-- UTF-8 encoding of one unicode scalar value (`bytes(s, 'utf-8')`,
per character). -/
def utf8EncChar (c : Nat) : Bytes :=
  if c < 0x80 then [c]
  else if c < 0x800 then [0xC0 + c / 64, 0x80 + c % 64]
  else if c < 0x10000 then
    [0xE0 + c / 4096, 0x80 + c / 64 % 64, 0x80 + c % 64]
  else
    [0xF0 + c / 262144, 0x80 + c / 4096 % 64, 0x80 + c / 64 % 64,
      0x80 + c % 64]

/-- UTF-8 encoding of a string given as its list of unicode scalar values. -/
def utf8Enc (cs : List Nat) : Bytes := (cs.map utf8EncChar).flatten

/-- Fuelled worker for `utf8Dec`. -/
def utf8DecGo : Nat → Bytes → Option (List Nat)
  | _, [] => some []
  | 0, _ :: _ => none
  | f + 1, b :: r =>
    if b < 0x80 then (utf8DecGo f r).map (b :: ·)
    else if b < 0xC2 then none
    else if b < 0xE0 then
      match r with
      | c1 :: r' =>
        if 0x80 ≤ c1 ∧ c1 < 0xC0 then
          (utf8DecGo f r').map (((b - 0xC0) * 64 + (c1 - 0x80)) :: ·)
        else none
      | [] => none
    else if b < 0xF0 then
      match r with
      | c1 :: c2 :: r' =>
        if (0x80 ≤ c1 ∧ c1 < 0xC0) ∧ (0x80 ≤ c2 ∧ c2 < 0xC0) then
          let v := (b - 0xE0) * 4096 + (c1 - 0x80) * 64 + (c2 - 0x80)
          if 0x800 ≤ v ∧ ¬(0xD800 ≤ v ∧ v ≤ 0xDFFF) then
            (utf8DecGo f r').map (v :: ·)
          else none
        else none
      | _ => none
    else if b < 0xF5 then
      match r with
      | c1 :: c2 :: c3 :: r' =>
        if (0x80 ≤ c1 ∧ c1 < 0xC0) ∧ (0x80 ≤ c2 ∧ c2 < 0xC0) ∧
            (0x80 ≤ c3 ∧ c3 < 0xC0) then
          let v := (b - 0xF0) * 262144 + (c1 - 0x80) * 4096 +
            (c2 - 0x80) * 64 + (c3 - 0x80)
          if 0x10000 ≤ v ∧ v ≤ 0x10FFFF then (utf8DecGo f r').map (v :: ·)
          else none
        else none
      | _ => none
    else none

/-- Strict UTF-8 decoding (`bytes.decode('utf-8')`): `none` models
`UnicodeDecodeError`. -/
def utf8Dec (bs : Bytes) : Option (List Nat) := utf8DecGo bs.length bs

/-- Association-list lookup: Python `dict` / bsddb table `get`. -/
def alGet {α : Type} : List (Bytes × α) → Bytes → Option α
  | [], _ => none
  | (k, v) :: r, key => if k = key then some v else alGet r key

/-- Association-list write: `d[key] = v` (update in place or append). -/
def alSet {α : Type} : List (Bytes × α) → Bytes → α → List (Bytes × α)
  | [], key, v => [(key, v)]
  | (k, w) :: r, key, v =>
    if k = key then (key, v) :: r else (k, w) :: alSet r key v

/-- Association-list delete: `del d[key]`. -/
def alDel {α : Type} : List (Bytes × α) → Bytes → List (Bytes × α)
  | [], _ => []
  | (k, w) :: r, key => if k = key then r else (k, w) :: alDel r key

/-- The error taxonomy raised by the embedded code (exceptions of
`exceptions.py`, `abstract.py`, `block.py`, `blockchain.py`). -/
inductive Err where
  | rawTooShort
  | rawTooLong
  | rawVersion
  | unicode
  | wrongSignature
  | notSigned
  | wrongChecksum
  | checksumTarget
  | verifyMsg (m : String)
  | ownership
  | chainMsg (m : String)
  | duplication
  | genesisDup
  | treeMsg (m : String)
  | doesNotExist
  | blockDuplication
  | typeCrash
  | fuelOut
deriving DecidableEq

/-- `isOk` for `Except` results. -/
def exOk {ε α : Type} : Except ε α → Bool
  | .ok _ => true
  | .error _ => false

instance {ε α : Type} [DecidableEq ε] [DecidableEq α] :
    DecidableEq (Except ε α) := fun x y =>
  match x, y with
  | .ok a, .ok b =>
    if h : a = b then isTrue (by rw [h]) else isFalse (by simp [h])
  | .error a, .error b =>
    if h : a = b then isTrue (by rw [h]) else isFalse (by simp [h])
  | .ok _, .error _ => isFalse (by simp)
  | .error _, .ok _ => isFalse (by simp)

/-- Modelled from the spec: the current `AbstractRevision` module is missing
from the sources (the `abstract.py` present is a stale revision whose `id`
property returns `None`, incompatible with `operation.py`/`blockchain.py`,
which use `from_obj`, `.obj` and rely on `BlockRev().id == bytes(32)` as the
comment next to `BlockChain.ROOT` records). Per the spec, a revision is
either `None` — whose id is the all-zero 32-byte sentinel — or an id.
`revIdM` is that id accessor on the `Option Bytes` representation. -/
def revIdM : Option Bytes → Bytes
  | none => zeros32
  | some i => i

/-- `Operation` (`operation.py`): `previous_operation_rev` as an optional
id (`none` = the null revision, i.e. a minting operation), the 16-byte
`uuid`, the address as its list of unicode scalar values, the owners' DER
keys, the signer's DER key, the detached signature (`none` = not signed) and
the separately persisted `containing_blocks` tuple. -/
structure OpData where
  prev : Option Bytes
  uuid : Bytes
  addr : List Nat
  ownersDer : List Bytes
  pkDer : Bytes
  sig : Option Bytes
  containing : List Bytes
deriving DecidableEq

/-- `Operation.unsigned_raw`: version, previous id, uuid, the address with
Python's `len(self.address)` — the CHARACTER count — as length prefix but
the UTF-8 bytes as payload, then the length-prefixed owner DER keys. -/
def opUnsignedRaw (op : OpData) : Bytes :=
  be4 1 ++ revIdM op.prev ++ op.uuid ++
  be4 op.addr.length ++ utf8Enc op.addr ++
  be4 op.ownersDer.length ++
  (op.ownersDer.map (fun d => be4 d.length ++ d)).flatten

/-- `AbstractSignedObject.raw`: unsigned bytes plus sized signer key and
signature (pure byte image; callers establish signedness separately). -/
def opRawBytes (op : OpData) : Bytes :=
  opUnsignedRaw op ++ be4 op.pkDer.length ++ op.pkDer ++
  be4 (op.sig.getD []).length ++ op.sig.getD []

/-- An operation's id: `double_sha(raw)` (`AbstractSignedObject.hash`). -/
def opIdOf (sha : Bytes → Bytes) (op : OpData) : Bytes :=
  double_sha sha (opRawBytes op)

/-- `Block` (`block.py`): previous block revision as an optional id,
timestamp, operations limit, contained operation ids, proof-of-work fields
and signature, plus the in-memory cache of resolved operations. -/
structure BlockData where
  prev : Option Bytes
  timestamp : Nat
  operationsLimit : Nat
  operationIds : List Bytes
  difficulty : Nat
  padding : Nat
  checksum : Option Bytes
  pkDer : Bytes
  sig : Option Bytes
  operations : List OpData
deriving DecidableEq

/-- The padding-independent part of `Block.unmined_raw`. -/
def unminedPre (b : BlockData) : Bytes :=
  be4 1 ++ revIdM b.prev ++ be4 b.timestamp ++ be4 b.operationsLimit ++
  be4 b.operationIds.length ++ b.operationIds.flatten ++ be4 b.difficulty

/-- `Block.unmined_raw`: version, previous id, timestamp, operations limit,
operation ids, difficulty, padding. -/
def unminedRaw (b : BlockData) : Bytes := unminedPre b ++ be4 b.padding

/-- `Block.raw` as a pure byte image: unmined bytes, checksum, sized signer
key and signature. -/
def blockRawBytes (b : BlockData) : Bytes :=
  unminedRaw b ++ b.checksum.getD zeros32 ++
  be4 b.pkDer.length ++ b.pkDer ++
  be4 (b.sig.getD []).length ++ b.sig.getD []

/-- A block's id: `double_sha(raw)`. -/
def blockIdOf (sha : Bytes → Bytes) (b : BlockData) : Bytes :=
  double_sha sha (blockRawBytes b)

/-- `BlockChain.Record` (`blockchain.py`): depth, previous id, next ids.
`depth`/`previous_id` are `Option` because the constructor scan builds
records with `None` fields before the BFS fills the depths. -/
structure ChainRec where
  depth : Option Int
  previousId : Option Bytes
  nextIds : List Bytes
deriving DecidableEq

/-- The whole mutable state: the three persistent tables (identifiers as
`uuid ↦ latest operation id`, operations, blocks) and the in-memory
`BlockChain` map with its head. -/
structure State where
  identifiers : List (Bytes × Bytes)
  ops : List (Bytes × OpData)
  blocks : List (Bytes × BlockData)
  chain : List (Bytes × ChainRec)
  head : Option Bytes
deriving DecidableEq

/-- `BlockChain.ROOT = bytes(32)`. -/
def ROOT : Bytes := zeros32

/-- `read_bytes(buffer, n)` (`utils.py`): exactly `n` bytes or
`RawFormatError("raw input too short")`. -/
def rdBytes (n : Nat) (l : Bytes) : Except Err (Bytes × Bytes) :=
  if l.length < n then .error .rawTooShort else .ok (l.take n, l.drop n)

/-- `read_uint32`. -/
def rdU32 (l : Bytes) : Except Err (Nat × Bytes) :=
  match rdBytes 4 l with
  | .error e => .error e
  | .ok (h, r) => .ok (beVal h, r)

/-- `read_sized_bytes`. -/
def rdSized (l : Bytes) : Except Err (Bytes × Bytes) :=
  match rdU32 l with
  | .error e => .error e
  | .ok (n, r) => rdBytes n r

/-- `read_string`: sized bytes, strictly UTF-8-decoded. -/
def rdString (l : Bytes) : Except Err (List Nat × Bytes) :=
  match rdSized l with
  | .error e => .error e
  | .ok (s, r) =>
    match utf8Dec s with
    | none => .error .unicode
    | some cs => .ok (cs, r)

/-- Read `n` sized byte strings (the owners list). -/
def rdSizedList : Nat → Bytes → Except Err (List Bytes × Bytes)
  | 0, l => .ok ([], l)
  | n + 1, l =>
    match rdSized l with
    | .error e => .error e
    | .ok (x, r) =>
      match rdSizedList n r with
      | .error e => .error e
      | .ok (xs, r') => .ok (x :: xs, r')

/-- `Operation._from_raw_without_verifying`: parse the signed layout, reject
trailing bytes, and normalise an all-zero previous id to the null revision.
The parsed operation has an empty `containing_blocks`. -/
def opFromRawNV (raw : Bytes) : Except Err OpData :=
  match rdU32 raw with
  | .error e => .error e
  | .ok (v, r1) =>
    if v ≠ 1 then .error .rawVersion else
    match rdBytes 32 r1 with
    | .error e => .error e
    | .ok (prevB, r2) =>
      match rdBytes 16 r2 with
      | .error e => .error e
      | .ok (uu, r3) =>
        match rdString r3 with
        | .error e => .error e
        | .ok (addr, r4) =>
          match rdU32 r4 with
          | .error e => .error e
          | .ok (cnt, r5) =>
            match rdSizedList cnt r5 with
            | .error e => .error e
            | .ok (owners, r6) =>
              match rdSized r6 with
              | .error e => .error e
              | .ok (pk, r7) =>
                match rdSized r7 with
                | .error e => .error e
                | .ok (sg, r8) =>
                  if r8 ≠ [] then .error .rawTooLong else
                  let prev := if beVal prevB = 0 then none else some prevB
                  .ok ⟨prev, uu, addr, owners, pk, some sg, []⟩

/-- `Operation.get`: fetch a stored operation row by id, or `DoesNotExist`. -/
def opGet (s : State) (oid : Bytes) : Except Err OpData :=
  match alGet s.ops oid with
  | none => .error .doesNotExist
  | some op => .ok op

/-- `AbstractSignedObject.verify_signature`: `Verify("object is not
signed")` without a signature, otherwise the external ECDSA check `ec`
applied to signer key, signature and `unsigned_raw`. -/
def opVerifySignature (ec : Bytes → Bytes → Bytes → Bool) (op : OpData) :
    Except Err Unit :=
  match op.sig with
  | none => .error .notSigned
  | some sg =>
    if ec op.pkDer sg (opUnsignedRaw op) then .ok () else
    .error .wrongSignature

/-- `Operation.verify`: signature, distinct owners, and — for a non-minting
operation — the predecessor must resolve, own the signer's key
(`OwnershipError`, checked first) and share the uuid. -/
def opVerify (ec : Bytes → Bytes → Bytes → Bool) (s : State) (op : OpData) :
    Except Err Unit :=
  match opVerifySignature ec op with
  | .error e => .error e
  | .ok _ =>
    if ¬ op.ownersDer.Nodup then .error (.verifyMsg "duplicated owners")
    else
      match op.prev with
      | none => .ok ()
      | some pid =>
        match alGet s.ops pid with
        | none => .error (.chainMsg "previous_operation_rev does not exist")
        | some prevOp =>
          if op.pkDer ∉ prevOp.ownersDer then .error .ownership
          else if op.uuid ≠ prevOp.uuid then .error (.verifyMsg "uuid mismatch")
          else .ok ()

/-- `Operation.from_raw` (`AbstractSignedObject.from_raw`): parse, then
`verify`. -/
def opFromRaw (ec : Bytes → Bytes → Bytes → Bool) (s : State) (raw : Bytes) :
    Except Err OpData :=
  match opFromRawNV raw with
  | .error e => .error e
  | .ok op =>
    match opVerify ec s op with
    | .error e => .error e
    | .ok _ => .ok op

/-- `Operation.put_verify`: a minting operation is rejected when any other
stored operation carries the same uuid. -/
def opPutVerify (sha : Bytes → Bytes) (s : State) (op : OpData) :
    Except Err Unit :=
  match op.prev with
  | some _ => .ok ()
  | none =>
    if s.ops.any (fun kv => kv.1 ≠ opIdOf sha op ∧ kv.2.uuid = op.uuid) then
      .error (.chainMsg "trying to create a minting operation for an existing uuid")
    else .ok ()

/-- `Operation.is_in_database`: the id is stored AND the stored row's
`containing_blocks` tuple equals the in-memory one exactly. -/
def opIsInDb (sha : Bytes → Bytes) (s : State) (op : OpData) : Bool :=
  match alGet s.ops (opIdOf sha op) with
  | none => false
  | some stored => stored.containing = op.containing

/-- `AbstractSignedObject.put` as specialised by `Operation` (`abstract.py`
lines 179-189 with the `is_in_database` override of `operation.py`):
verify, `put_verify`, then write the row unless `is_in_database` — in which
case `DuplicationError`. Note the write happens whenever the override
returns `False`, which includes an id already stored under a different
`containing_blocks` tuple: the row is then overwritten. -/
def opAbstractPut (sha : Bytes → Bytes) (ec : Bytes → Bytes → Bytes → Bool)
    (s : State) (op : OpData) : Except (Err × State) State :=
  match opVerify ec s op with
  | .error e => .error (e, s)
  | .ok _ =>
    match opPutVerify sha s op with
    | .error e => .error (e, s)
    | .ok _ =>
      if opIsInDb sha s op then .error (.duplication, s)
      else .ok { s with ops := alSet s.ops (opIdOf sha op) op }

/-- `Operation.put(block_rev)`: `__add_containing_block` (the block must be
stored and must list this operation's id; the block id is appended to
`containing_blocks` unless present) followed by the persistence-layer put. -/
def opPutInBlock (sha : Bytes → Bytes) (ec : Bytes → Bytes → Bytes → Bool)
    (s : State) (bid : Bytes) (op : OpData) : Except (Err × State) State :=
  match alGet s.blocks bid with
  | none => .error (.doesNotExist, s)
  | some bObj =>
    if opIdOf sha op ∈ bObj.operationIds then
      let op' := if bid ∈ op.containing then op
        else { op with containing := op.containing ++ [bid] }
      opAbstractPut sha ec s op'
    else .error (.doesNotExist, s)

/-- `Block.refresh_operations`: use the cached operations when their hashes
match `operation_ids`, otherwise resolve each id from the store. -/
def blockOperations (sha : Bytes → Bytes) (s : State) (b : BlockData) :
    Except Err (List OpData) :=
  if b.operations.map (opIdOf sha) = b.operationIds then .ok b.operations
  else b.operationIds.mapM (opGet s)

/-- Defaults of the spec: `MIN_OPERATIONS = 2`. -/
def MIN_OPERATIONS : Nat := 2

/-- Defaults of the spec: `MAX_OPERATIONS = 10`. -/
def MAX_OPERATIONS : Nat := 10

/-- The in-block fork check of the spec: over the multiset of
`previous_operation_rev.id` of the contained operations, restricted to
values that are ids listed in this block, some value has count `≥ 2`. -/
def treeConflict (ops : List OpData) (ids : List Bytes) : Bool :=
  ops.any (fun o =>
    revIdM o.prev ∈ ids ∧
      2 ≤ ops.countP (fun o2 => revIdM o2.prev == revIdM o.prev))

/-- Modelled from the spec: the current `Block.verify` is missing from the
sources (`block.py` is a stale revision that cannot be imported — it needs
the absent `src.pmpi.revision` module — and whose `verify` carries `TODO`
markers for checks its own tests exercise). Per the spec and the tests:
checksum equality (raised from `unsigned_raw` before the signature check),
signature, operations-limit bounds, the in-block fork check, each contained
operation's verification, resolution of a non-sentinel previous block, and
the proof-of-work target `double_sha(unmined) < 2^(256 - difficulty)`. -/
def blockVerify (sha : Bytes → Bytes) (ec : Bytes → Bytes → Bytes → Bool)
    (s : State) (b : BlockData) : Except Err Unit :=
  if b.checksum ≠ some (double_sha sha (unminedRaw b)) then
    .error .wrongChecksum
  else
    match b.sig with
    | none => .error .notSigned
    | some sg =>
      if ¬ ec b.pkDer sg (unminedRaw b ++ double_sha sha (unminedRaw b)) then
        .error .wrongSignature
      else if ¬ (MIN_OPERATIONS ≤ b.operationsLimit ∧
          b.operationsLimit ≤ MAX_OPERATIONS) then
        .error (.verifyMsg "operations_limit out of range")
      else if ¬ (MIN_OPERATIONS ≤ b.operationIds.length ∧
          b.operationIds.length ≤ b.operationsLimit) then
        .error (.verifyMsg "number of operations does not satisfy limitations")
      else
        match blockOperations sha s b with
        | .error e => .error e
        | .ok ops =>
          if treeConflict ops b.operationIds then
            .error (.chainMsg "operations are creating tree inside the block")
          else
            match ops.forM (opVerify ec s) with
            | .error e => .error e
            | .ok _ =>
              match b.prev with
              | some p =>
                if (alGet s.blocks p).isNone then
                  .error (.chainMsg "previous_block_rev does not exist")
                else if beVal (double_sha sha (unminedRaw b)) <
                    2 ^ (256 - b.difficulty) then .ok ()
                else .error .checksumTarget
              | none =>
                if beVal (double_sha sha (unminedRaw b)) <
                    2 ^ (256 - b.difficulty) then .ok ()
                else .error .checksumTarget

/-- Modelled from the spec: `Block.put_verify` — a genesis block (sentinel
previous revision) is rejected with `GenesisBlockDuplication` when the tree
root already has a child. -/
def blockPutVerify (s : State) (b : BlockData) : Except Err Unit :=
  match b.prev with
  | some _ => .ok ()
  | none =>
    match alGet s.chain ROOT with
    | none => .error .typeCrash
    | some r => if r.nextIds = [] then .ok () else .error .genesisDup

/-- `BlockChain.add_block`: the id must be new, the previous id must have a
record; the parent's `next_ids` gains the id (kept sorted) and the new
record's depth is the parent's plus one. -/
def addBlock (s : State) (bid prevId : Bytes) : Except (Err × State) State :=
  match alGet s.chain bid with
  | some _ => .error (.blockDuplication, s)
  | none =>
    match alGet s.chain prevId with
    | none => .error (.doesNotExist, s)
    | some pr =>
      match pr.depth with
      | none => .error (.typeCrash, s)
      | some d =>
        let c1 := alSet s.chain prevId
          { pr with nextIds := sortLex (pr.nextIds ++ [bid]) }
        .ok { s with chain := alSet c1 bid ⟨some (d + 1), some prevId, []⟩ }

/-- `op.put(block_rev)` for each contained operation, in order. -/
def opsPutFold (sha : Bytes → Bytes) (ec : Bytes → Bytes → Bytes → Bool)
    (s : State) (bid : Bytes) : List OpData → Except (Err × State) State
  | [] => .ok s
  | op :: rest =>
    match opPutInBlock sha ec s bid op with
    | .error es => .error es
    | .ok s' => opsPutFold sha ec s' bid rest

/-- Modelled from the spec (the current `Block.put` is missing from the
sources, see `blockVerify`): verify, `put_verify`, reject a stored id with
`DuplicationError`, write the block row, `BlockChain.add_block`, then
`op.put(block_rev)` for each contained operation. An error carries the
state reached so far. -/
def blockPut (sha : Bytes → Bytes) (ec : Bytes → Bytes → Bytes → Bool)
    (s : State) (b : BlockData) : Except (Err × State) State :=
  match blockVerify sha ec s b with
  | .error e => .error (e, s)
  | .ok _ =>
    match blockPutVerify s b with
    | .error e => .error (e, s)
    | .ok _ =>
      let bid := blockIdOf sha b
      match alGet s.blocks bid with
      | some _ => .error (.duplication, s)
      | none =>
        let s1 : State := { s with blocks := alSet s.blocks bid b }
        match addBlock s1 bid (revIdM b.prev) with
        | .error es => .error es
        | .ok s2 =>
          match blockOperations sha s b with
          | .error e => .error (e, s2)
          | .ok ops => opsPutFold sha ec s2 bid ops

/-- The mining target `(1 << 256 - difficulty) - 1` as 32 big-endian
bytes (`Block.mine`). -/
def targetBytes (d : Nat) : Bytes := beBytes 32 (2 ^ (256 - d) - 1)

/-- The `while double_sha(unmined_raw) > target` loop of `Block.mine`,
fuelled: each iteration bumps `padding` and rewrites the last four bytes of
the buffer. Note the buffer starts from the CALLER's padding while the
field is reset to 0, exactly as the source does. -/
def mineLoop (sha : Bytes → Bytes) : Nat → BlockData → Bytes →
    Option BlockData
  | 0, _, _ => none
  | f + 1, b, u =>
    if lexLt (targetBytes b.difficulty) (double_sha sha u) then
      mineLoop sha f { b with padding := b.padding + 1 }
        (u.take (u.length - 4) ++ be4 (b.padding + 1))
    else some b

/-- `Block.mine`: capture `unmined_raw` with the current padding, reset
`padding` to 0, run the search loop, then set `checksum` to
`double_sha(self.unmined_raw())` of the final state. -/
def mine (sha : Bytes → Bytes) (b : BlockData) (fuel : Nat) :
    Option BlockData :=
  match mineLoop sha fuel { b with padding := 0 } (unminedRaw b) with
  | none => none
  | some b' =>
    some { b' with checksum := some (double_sha sha (unminedRaw b')) }

/-- One step of the constructor scan of `BlockChain.__init__` (lines 48-59):
link the block under its parent record (created on demand) and create or
re-point its own record. -/
def scanStep (m : List (Bytes × ChainRec)) (p : Bytes × Bytes) :
    List (Bytes × ChainRec) :=
  let m1 := match alGet m p.2 with
    | some r => alSet m p.2 { r with nextIds := r.nextIds ++ [p.1] }
    | none => alSet m p.2 ⟨none, none, [p.1]⟩
  match alGet m1 p.1 with
  | some r => alSet m1 p.1 { r with previousId := some p.2 }
  | none => alSet m1 p.1 ⟨none, some p.2, []⟩

/-- The constructor scan over the stored blocks, given as
`(block id, previous id)` pairs in database order. -/
def initScan (l : List (Bytes × Bytes)) : List (Bytes × ChainRec) :=
  l.foldl scanStep []

/-- After the scan: set the root's depth to 0, or create the lone root
record when the store was empty (`BlockChain.__init__` lines 61-64). -/
def initDepthFix (m : List (Bytes × ChainRec)) :
    Except Err (List (Bytes × ChainRec)) :=
  if m.isEmpty then .ok [(ROOT, ⟨some 0, none, []⟩)]
  else
    match alGet m ROOT with
    | none => .error .doesNotExist
    | some r => .ok (alSet m ROOT { r with depth := some 0 })

/-- `BlockChain.max_depth` over a raw map and head: the head record's
depth, `-1` when the head is unset or absent (`Block.DoesNotExist`). -/
def maxDepthOf (m : List (Bytes × ChainRec)) (h : Option Bytes) : Int :=
  match h with
  | none => -1
  | some k =>
    match alGet m k with
    | none => -1
    | some r => r.depth.getD (-1)

/-- `BlockChain.max_depth` on the full state. -/
def State.maxDepth (s : State) : Int := maxDepthOf s.chain s.head

/-- Set the depth of each child record (the inner loop of the constructor
BFS); every child must already have a record. -/
def setChildDepths (m : List (Bytes × ChainRec)) :
    List Bytes → Int → Option (List (Bytes × ChainRec))
  | [], _ => some m
  | c :: cs, d =>
    match alGet m c with
    | none => none
    | some r => setChildDepths (alSet m c { r with depth := some d }) cs d

/-- The constructor BFS (`BlockChain.__init__` lines 67-77): pop a record,
move the head to it when its depth beats the current `max_depth`, sort its
`next_ids`, assign the children's depths and enqueue them. -/
def bfs : Nat → List (Bytes × ChainRec) → List Bytes →
    Option Bytes → Except Err (List (Bytes × ChainRec) × Option Bytes)
  | 0, _, _ :: _, _ => .error .fuelOut
  | _, m, [], hd => .ok (m, hd)
  | f + 1, m, rev :: qs, hd =>
    match alGet m rev with
    | none => .error .doesNotExist
    | some r =>
      match r.depth with
      | none => .error .typeCrash
      | some d =>
        let hd' := if d > maxDepthOf m hd then some rev else hd
        let m1 := alSet m rev { r with nextIds := sortLex r.nextIds }
        match setChildDepths m1 (sortLex r.nextIds) (d + 1) with
        | none => .error .doesNotExist
        | some m2 => bfs f m2 (qs ++ sortLex r.nextIds) hd'

/-- `BlockChain.__init__` end to end: scan, depth fix, BFS from the root. -/
def blockChainInit (l : List (Bytes × Bytes)) (fuel : Nat) :
    Except Err (List (Bytes × ChainRec) × Option Bytes) :=
  match initDepthFix (initScan l) with
  | .error e => .error e
  | .ok m => bfs fuel m [ROOT] none

/-- Record lookup keyed by a possibly-`None` id: Python's `map[None]` raises
`KeyError`, surfaced as `Block.DoesNotExist`. -/
def alGetO (m : List (Bytes × ChainRec)) : Option Bytes → Option ChainRec
  | none => none
  | some k => alGet m k

/-- One step up the tree in `__lowest_common_ancestor`. -/
def lcaUp (s : State) (p : Option Bytes × ChainRec) :
    Except Err (Option Bytes × ChainRec) :=
  match alGetO s.chain p.2.previousId with
  | none => .error .doesNotExist
  | some r => .ok (p.2.previousId, r)

/-- The first loop of `__lowest_common_ancestor`: raise the deeper pointer
until the depths agree. -/
def lcaLevel (s : State) : Nat → (Option Bytes × ChainRec) →
    (Option Bytes × ChainRec) → Except Err ((Option Bytes × ChainRec) ×
    (Option Bytes × ChainRec))
  | 0, _, _ => .error .fuelOut
  | f + 1, a, b =>
    match a.2.depth, b.2.depth with
    | some da, some db =>
      if da > db then
        match lcaUp s a with
        | .error e => .error e
        | .ok a' => lcaLevel s f a' b
      else .ok (a, b)
    | _, _ => .error .typeCrash

/-- The second loop: move both pointers up until the ids agree. -/
def lcaMeet (s : State) : Nat → (Option Bytes × ChainRec) →
    (Option Bytes × ChainRec) → Except Err (Option Bytes)
  | 0, _, _ => .error .fuelOut
  | f + 1, a, b =>
    if a.1 = b.1 then .ok a.1
    else
      match lcaUp s a with
      | .error e => .error e
      | .ok a' =>
        match lcaUp s b with
        | .error e => .error e
        | .ok b' => lcaMeet s f a' b'

/-- `BlockChain.__lowest_common_ancestor`: fetch both records, order by
depth, level, then walk in lockstep. -/
def lca (s : State) (fuel : Nat) (id1 id2 : Option Bytes) :
    Except Err (Option Bytes) :=
  match alGetO s.chain id1, alGetO s.chain id2 with
  | some r1, some r2 =>
    let pair := if (r1.depth.getD 0) < (r2.depth.getD 0) then
      ((id2, r2), (id1, r1)) else ((id1, r1), (id2, r2))
    match lcaLevel s fuel pair.1 pair.2 with
    | .error e => .error e
    | .ok (a, b) => lcaMeet s fuel a b
  | _, _ => .error .doesNotExist

/-- `BlockChain.backward_blocks_chain`: the ids from `block_id` down to the
root or `end_block_id`, inclusive; `Tree` error when the walk ends
elsewhere than `end_block_id`. -/
def backwardChain (s : State) : Nat → Option Bytes → Option Bytes →
    Except Err (List (Option Bytes))
  | 0, _, _ => .error .fuelOut
  | f + 1, bid, endId =>
    if bid ≠ some ROOT ∧ bid ≠ endId then
      match alGetO s.chain bid with
      | none => .error .doesNotExist
      | some r =>
        match backwardChain s f r.previousId endId with
        | .error e => .error e
        | .ok rest => .ok (bid :: rest)
    else if bid = endId then .ok [bid]
    else .error (.treeMsg "end_block_id is not an ancestor of block_id")

/-- The inner `while len(containing_blocks) == 1` walk of the rewind phase
of `__set_head`: step to the previous operation; stop with `none` at a
minting operation, or with the first operation not contained in exactly one
block on the old branch. A missing predecessor row propagates
`Operation.DoesNotExist`. -/
def rewindWalk (s : State) (after : List (Option Bytes)) :
    Nat → OpData → Except Err (Option OpData)
  | 0, _ => .error .fuelOut
  | f + 1, op =>
    match op.prev with
    | none => .ok none
    | some pid =>
      match opGet s pid with
      | .error e => .error e
      | .ok op' =>
        if (op'.containing.filter (fun bl => some bl ∈ after)).length = 1
        then rewindWalk s after f op'
        else .ok (some op')

/-- Rewinding one identifier (`__set_head`, first `for` loop): when its
current operation sits in exactly one block of the old branch, walk back,
remove the entry, and re-insert it pointing at the stop operation unless
the walk fell off the chain's start. -/
def rewindOne (sha : Bytes → Bytes) (s : State) (after : List (Option Bytes))
    (fuel : Nat) (uuid opId : Bytes) : Except (Err × State) State :=
  match opGet s opId with
  | .error e => .error (e, s)
  | .ok op =>
    if (op.containing.filter (fun bl => some bl ∈ after)).length = 1 then
      match rewindWalk s after fuel op with
      | .error e => .error (e, s)
      | .ok finalOp =>
        let s' := { s with identifiers := alDel s.identifiers uuid }
        match finalOp with
        | none => .ok s'
        | some fo =>
          .ok { s' with
                identifiers := alSet s'.identifiers uuid (opIdOf sha fo) }
    else .ok s

/-- The rewind phase over the snapshot of the identifier table taken before
the loop (the source materialises `[Identifier.get(uuid) for uuid in
Identifier.get_uuid_list()]` up front). -/
def rewindFold (sha : Bytes → Bytes) (after : List (Option Bytes))
    (fuel : Nat) (s : State) : List (Bytes × Bytes) →
    Except (Err × State) State
  | [] => .ok s
  | (uuid, opId) :: rest =>
    match rewindOne sha s after fuel uuid opId with
    | .error es => .error es
    | .ok s' => rewindFold sha after fuel s' rest

/-- Replay of one block's operations (`__set_head`, second `for` loop): a
mapped uuid must currently point at the operation's predecessor
(`Tree("inconsistency of operations")` otherwise) and is re-pointed at the
operation; an unmapped uuid is created for a minting operation and is
`Tree("multiple minting of the identifier")` otherwise. -/
def replayOps (sha : Bytes → Bytes) (s : State) :
    List Bytes → Except (Err × State) State
  | [] => .ok s
  | oid :: rest =>
    match opGet s oid with
    | .error e => .error (e, s)
    | .ok op =>
      match alGet s.identifiers op.uuid with
      | some cur =>
        if cur = revIdM op.prev then
          replayOps sha
            { s with
              identifiers :=
                alSet (alDel s.identifiers op.uuid) op.uuid (opIdOf sha op) }
            rest
        else .error (.treeMsg "inconsistency of operations", s)
      | none =>
        if op.prev.isNone then
          replayOps sha
            { s with
              identifiers := alSet s.identifiers op.uuid (opIdOf sha op) }
            rest
        else .error (.treeMsg "multiple minting of the identifier", s)

/-- Replay over the new branch, root-to-leaf: each block is fetched from
the store and its operations processed in order. -/
def replayFold (sha : Bytes → Bytes) (s : State) :
    List (Option Bytes) → Except (Err × State) State
  | [] => .ok s
  | bidO :: rest =>
    match bidO with
    | none => .error (.doesNotExist, s)
    | some bid =>
      match alGet s.blocks bid with
      | none => .error (.doesNotExist, s)
      | some b =>
        match replayOps sha s b.operationIds with
        | .error es => .error es
        | .ok s' => replayFold sha s' rest

/-- `BlockChain.__set_head`: LCA of the old and new head, the old branch
above the LCA, the rewind phase, the replay phase over the new branch
(computed after the rewind, root-to-leaf), and only then the head
assignment. An error carries the state reached so far: the partial
identifier-table updates persist, only the head write is skipped. -/
def setHead (sha : Bytes → Bytes) (fuel : Nat) (s : State)
    (newHeadId : Option Bytes) : Except (Err × State) State :=
  match lca s fuel s.head newHeadId with
  | .error e => .error (e, s)
  | .ok lcaId =>
    match backwardChain s fuel s.head lcaId with
    | .error e => .error (e, s)
    | .ok ch =>
      match rewindFold sha ch.dropLast fuel s s.identifiers with
      | .error es => .error es
      | .ok s1 =>
        match backwardChain s1 fuel newHeadId lcaId with
        | .error e => .error (e, s1)
        | .ok ch2 =>
          match replayFold sha s1 ch2.dropLast.reverse with
          | .error es => .error es
          | .ok s2 => .ok { s2 with head := newHeadId }

/-- The per-block body of `BlockChain.update_blocks`: `block.put()`, then
read the fresh record and track the deepest new leaf. -/
def putFold (sha : Bytes → Bytes) (ec : Bytes → Bytes → Bytes → Bool)
    (s : State) (d : Int) (h : Option Bytes) : List BlockData →
    Except (Err × State) (State × Int × Option Bytes)
  | [] => .ok (s, d, h)
  | b :: rest =>
    match blockPut sha ec s b with
    | .error es => .error es
    | .ok s' =>
      match alGet s'.chain (blockIdOf sha b) with
      | none => .error (.doesNotExist, s')
      | some r =>
        match r.depth with
        | none => .error (.typeCrash, s')
        | some dep =>
          if dep > d then putFold sha ec s' dep (some (blockIdOf sha b)) rest
          else putFold sha ec s' d h rest

/-- `BlockChain.update_blocks`: start from the current `max_depth` and
`head`, put every new block while tracking the deepest new record, and
call `__set_head` once at the end — only when the tracked depth beats the
(current) `max_depth`. -/
def updateBlocks (sha : Bytes → Bytes) (ec : Bytes → Bytes → Bytes → Bool)
    (fuel : Nat) (s : State) (bs : List BlockData) :
    Except (Err × State) State :=
  match putFold sha ec s s.maxDepth s.head bs with
  | .error es => .error es
  | .ok (s1, d, h) =>
    if d > s1.maxDepth then setHead sha fuel s1 h else .ok s1

/-- `headWf`: when the head is set, its record is in the map — true of every
state the constructor or `add_block` can produce. -/
def headWf (s : State) : Bool :=
  match s.head with
  | none => true
  | some h => (alGet s.chain h).isSome

/-- Record lookups transport along a state change, preserving depths. -/
def ChainPres (s s' : State) : Prop :=
  ∀ k r, alGet s.chain k = some r →
    ∃ r', alGet s'.chain k = some r' ∧ r'.depth = r.depth

/-- The head of the state carried by an outcome, error or not. -/
def resHead : Except (Err × State) State → Option Bytes
  | .ok s' => s'.head
  | .error (_, s') => s'.head

/-- The chain map of the state carried by an outcome. -/
def resChain : Except (Err × State) State → List (Bytes × ChainRec)
  | .ok s' => s'.chain
  | .error (_, s') => s'.chain

/-- The root record lists `g` among its children. -/
def RootChild (m : List (Bytes × ChainRec)) (g : Bytes) : Prop :=
  ∃ r, alGet m ROOT = some r ∧ g ∈ r.nextIds

/-!  ## Concrete instances: an executable stand-in for the external SHA-256
(32-byte output, value of the input modulo 2^255) and an
always-accepting stand-in for the external ECDSA check, plus the concrete
states and objects the witnesses and counterexamples evaluate. -/

/-- Executable 32-byte digest stand-in for the external SHA-256. -/
def shaC : Bytes → Bytes := fun b => beBytes 32 (beVal b % 2 ^ 255)

/-- Always-accepting stand-in for the external ECDSA verification. -/
def ecTrue : Bytes → Bytes → Bytes → Bool := fun _ _ _ => true

/-- C1 scenario: a fresh chain whose lone block holds a minting operation
for one uuid and a non-minting operation for another, unmapped uuid. -/
def cUuid1 : Bytes := List.replicate 16 1

def cUuid2 : Bytes := List.replicate 16 2

def cB1id : Bytes := List.replicate 32 2

def cI1k : Bytes := List.replicate 32 3

def cI2k : Bytes := List.replicate 32 4

def cI1op : OpData := ⟨none, cUuid1, [], [], [1], some [2], [cB1id]⟩

def cI2op : OpData :=
  ⟨some (List.replicate 32 7), cUuid2, [], [], [1], some [2], [cB1id]⟩

def cBlk1 : BlockData := ⟨none, 0, 5, [cI1k, cI2k], 1, 0, none, [1], some [2], []⟩

def cS1 : State :=
  ⟨[], [(cI1k, cI1op), (cI2k, cI2op)], [(cB1id, cBlk1)],
    [(ROOT, ⟨some 0, none, [cB1id]⟩), (cB1id, ⟨some 1, some ROOT, []⟩)],
    some ROOT⟩

/-- The state `__set_head` leaves behind in the C1 scenario: the replay
inserted the first identifier before raising. -/
def cS1x : State := { cS1 with identifiers := [(cUuid1, opIdOf shaC cI1op)] }

/-- C3 counterexample: a genesis block holding two minting operations
(equal, all-zero previous ids). -/
def cUuidA : Bytes := List.replicate 16 3

def cUuidB : Bytes := List.replicate 16 4

def cOp31 : OpData := ⟨none, cUuidA, [], [], [1], some [2], []⟩

def cOp32 : OpData := ⟨none, cUuidB, [65], [], [1], some [2], []⟩

def cBlock3base : BlockData :=
  ⟨none, 0, 5, [opIdOf shaC cOp31, opIdOf shaC cOp32], 1, 0, none, [1],
    some [2], [cOp31, cOp32]⟩

def cBlock3 : BlockData :=
  { cBlock3base with
    checksum := some (double_sha shaC (unminedRaw cBlock3base)) }

def cS3 : State := ⟨[], [], [], [(ROOT, ⟨some 0, none, []⟩)], some ROOT⟩

/-- C3 witness: a genesis block with a minting operation and two conflicting
successors of it, all three listed in the block. -/
def cUuidW : Bytes := List.replicate 16 7

def cOpW1 : OpData := ⟨none, cUuidW, [], [], [1], some [2], []⟩

def cOpW2 : OpData :=
  ⟨some (opIdOf shaC cOpW1), cUuidW, [65], [], [1], some [2], []⟩

def cOpW3 : OpData :=
  ⟨some (opIdOf shaC cOpW1), cUuidW, [66], [], [1], some [2], []⟩

def cBlockWbase : BlockData :=
  ⟨none, 0, 5, [opIdOf shaC cOpW1, opIdOf shaC cOpW2, opIdOf shaC cOpW3],
    1, 0, none, [1], some [2], [cOpW1, cOpW2, cOpW3]⟩

def cBlockW : BlockData :=
  { cBlockWbase with
    checksum := some (double_sha shaC (unminedRaw cBlockWbase)) }

def cSW : State := ⟨[], [], [], [(ROOT, ⟨some 0, none, []⟩)], some ROOT⟩

/-- C4 witness: the freshly initialised empty chain. -/
def cS4 : State := ⟨[], [], [], [(ROOT, ⟨some 0, none, []⟩)], some ROOT⟩

/-- C5 witness: a stored minting predecessor owning the signer's key. -/
def cPidD : Bytes := List.replicate 32 5

def cUuidD : Bytes := List.replicate 16 8

def cPred5 : OpData := ⟨none, cUuidD, [], [[7]], [9], some [2], []⟩

def cOp5 : OpData := ⟨some cPidD, cUuidD, [], [], [7], some [2], []⟩

def cS5 : State := ⟨[], [(cPidD, cPred5)], [], [], none⟩

/-- C6 witness: one genesis block id. -/
def cB6 : Bytes := List.replicate 32 6

/-- C7 counterexample: a block whose padding is 1 when `mine` is called, at
difficulty 255, with a hash stand-in that accepts the stale initial buffer
at once. -/
def cBlock7 : BlockData := ⟨none, 0, 5, [], 255, 1, none, [], none, []⟩

def shaCex : Bytes → Bytes := fun b =>
  if b = unminedRaw cBlock7 then zeros32
  else if b = zeros32 then zeros32
  else List.replicate 32 255

def cBig : Bytes := List.replicate 32 255

def cMined7 : BlockData := { cBlock7 with padding := 0, checksum := some cBig }

/-- C7 witness: a freshly constructed block at difficulty 1. -/
def cBlock7w : BlockData := ⟨none, 0, 5, [], 1, 0, none, [], none, []⟩

def cMined7w : BlockData :=
  { cBlock7w with checksum := some (double_sha shaC (unminedRaw cBlock7w)) }

/-- C8 failing input: a verifiable signed operation whose address is the
single two-byte UTF-8 character U+00E9. -/
def cOp8 : OpData := ⟨none, List.range 16, [233], [], [5], some [6], []⟩

def cS8 : State := ⟨[], [], [], [], none⟩

/-- C9 witness: an operation whose stored row carries a different
`containing_blocks` tuple. -/
def cUuidC : Bytes := List.replicate 16 5

def cOp9 : OpData := ⟨none, cUuidC, [], [], [5], some [6], [List.replicate 32 9]⟩

def cStored9 : OpData := { cOp9 with containing := [] }

def cS9 : State := ⟨[], [(opIdOf shaC cOp9, cStored9)], [], [], none⟩

/-!  ## Association-list lemmas -/

theorem alGet_alSet_self {α : Type} (m : List (Bytes × α)) (k : Bytes)
    (v : α) : alGet (alSet m k v) k = some v := by
  induction m with
  | nil => simp [alSet, alGet]
  | cons p r ih =>
    by_cases h : p.1 = k
    · simp [alSet, alGet, h]
    · simp only [alSet, alGet]
      rw [if_neg h]
      simp only [alGet]
      rw [if_neg h]
      exact ih

theorem alGet_alSet_ne {α : Type} (m : List (Bytes × α)) (k k' : Bytes)
    (v : α) (h : k' ≠ k) : alGet (alSet m k v) k' = alGet m k' := by
  induction m with
  | nil =>
    simp only [alSet, alGet]
    rw [if_neg (fun hh => h hh.symm)]
  | cons p r ih =>
    by_cases hp : p.1 = k
    · subst hp
      simp only [alSet, if_pos rfl, alGet]
      rw [if_neg (fun hh => h hh.symm), if_neg (fun hh => h hh.symm)]
    · simp only [alSet, if_neg hp, alGet]
      by_cases hk : p.1 = k'
      · rw [if_pos hk, if_pos hk]
      · rw [if_neg hk, if_neg hk]
        exact ih

theorem alGet_isEmpty_false {α : Type} (m : List (Bytes × α)) (k : Bytes)
    (v : α) (h : alGet m k = some v) : m.isEmpty = false := by
  cases m with
  | nil => simp [alGet] at h
  | cons p r => simp [List.isEmpty]

/-!  ## Big-endian values, encodings and the lexicographic order -/

theorem beVal_lt_pow (l : Bytes) (h : ∀ x ∈ l, x < 256) :
    beVal l < 256 ^ l.length := by
  induction l with
  | nil => simp [beVal]
  | cons a as ih =>
    have ha : a < 256 := h a (by simp)
    have has : beVal as < 256 ^ as.length := ih (fun x hx => h x (by simp [hx]))
    have : a * 256 ^ as.length + beVal as < (a + 1) * 256 ^ as.length := by
      have := has
      nlinarith [pow_pos (show 0 < 256 by norm_num) as.length]
    calc beVal (a :: as) = a * 256 ^ as.length + beVal as := rfl
      _ < (a + 1) * 256 ^ as.length := this
      _ ≤ 256 * 256 ^ as.length := by
          have : a + 1 ≤ 256 := ha
          exact Nat.mul_le_mul_right _ this
      _ = 256 ^ (as.length + 1) := by ring
      _ = 256 ^ (a :: as).length := by simp

theorem beVal_append_last (l : Bytes) (d : Nat) :
    beVal (l ++ [d]) = beVal l * 256 + d := by
  induction l with
  | nil => simp [beVal]
  | cons a as ih =>
    have h1 : (as ++ [d]).length = as.length + 1 := by simp
    calc beVal ((a :: as) ++ [d])
        = a * 256 ^ (as ++ [d]).length + beVal (as ++ [d]) := rfl
      _ = a * 256 ^ (as.length + 1) + (beVal as * 256 + d) := by rw [h1, ih]
      _ = (a * 256 ^ as.length + beVal as) * 256 + d := by ring
      _ = beVal (a :: as) * 256 + d := rfl

theorem beBytes_length (n v : Nat) : (beBytes n v).length = n := by
  induction n generalizing v with
  | zero => simp [beBytes]
  | succ m ih => simp [beBytes, ih]

theorem beBytes_mem_lt (n v : Nat) : ∀ x ∈ beBytes n v, x < 256 := by
  induction n generalizing v with
  | zero => simp [beBytes]
  | succ m ih =>
    intro x hx
    simp only [beBytes, List.mem_append, List.mem_singleton] at hx
    rcases hx with hx | hx
    · exact ih _ x hx
    · subst hx; exact Nat.mod_lt _ (by norm_num)

theorem beVal_beBytes (n v : Nat) (h : v < 256 ^ n) :
    beVal (beBytes n v) = v := by
  induction n generalizing v with
  | zero =>
    simp [beBytes, beVal]
    omega
  | succ m ih =>
    have hdiv : v / 256 < 256 ^ m := by
      rw [Nat.div_lt_iff_lt_mul (by norm_num)]
      calc v < 256 ^ (m + 1) := h
        _ = 256 ^ m * 256 := by ring
    simp only [beBytes, beVal_append_last, ih _ hdiv]
    omega

theorem beVal_head_lt (a b : Nat) (as bs : Bytes)
    (hlen : as.length = bs.length) (hta : beVal as < 256 ^ as.length)
    (hab : a < b) :
    a * 256 ^ as.length + beVal as < b * 256 ^ bs.length + beVal bs := by
  rw [← hlen]
  have h1 : (a + 1) * 256 ^ as.length = a * 256 ^ as.length +
      256 ^ as.length := by ring
  have h2 : (a + 1) * 256 ^ as.length ≤ b * 256 ^ as.length :=
    Nat.mul_le_mul_right _ hab
  omega

theorem lexLt_iff_beVal (as : Bytes) : ∀ bs : Bytes,
    as.length = bs.length → (∀ x ∈ as, x < 256) → (∀ x ∈ bs, x < 256) →
    (lexLt as bs = true ↔ beVal as < beVal bs) := by
  induction as with
  | nil =>
    intro bs hlen _ _
    cases bs with
    | nil => simp [lexLt, beVal]
    | cons b bs' => simp at hlen
  | cons a as' ih =>
    intro bs hlen ha hb
    cases bs with
    | nil => simp at hlen
    | cons b bs' =>
      have hlen' : as'.length = bs'.length := by simpa using hlen
      have ha' : ∀ x ∈ as', x < 256 := fun x hx => ha x (by simp [hx])
      have hb' : ∀ x ∈ bs', x < 256 := fun x hx => hb x (by simp [hx])
      have hta : beVal as' < 256 ^ as'.length := beVal_lt_pow as' ha'
      have htb : beVal bs' < 256 ^ bs'.length := beVal_lt_pow bs' hb'
      simp only [lexLt, beVal, hlen', Bool.or_eq_true, Bool.and_eq_true,
        decide_eq_true_eq, beq_iff_eq]
      constructor
      · rintro (hab | ⟨hab, hrec⟩)
        · have h := beVal_head_lt a b as' bs' hlen' hta hab
          rw [hlen'] at h
          omega
        · subst hab
          have := (ih bs' hlen' ha' hb').mp hrec
          omega
      · intro hlt
        rcases Nat.lt_trichotomy a b with hab | hab | hab
        · exact Or.inl hab
        · subst hab
          refine Or.inr ⟨rfl, (ih bs' hlen' ha' hb').mpr ?_⟩
          omega
        · exfalso
          have h := beVal_head_lt b a bs' as' hlen'.symm htb hab
          rw [hlen'] at h
          omega

/-!  ## Mining: the search loop maintains the buffer/padding correspondence
and exits exactly when the hash is at most the target -/

theorem unminedRaw_padding (b : BlockData) (q : Nat) :
    unminedRaw { b with padding := q } = unminedPre b ++ be4 q := rfl

theorem take_unminedPre (b : BlockData) (p : Nat) :
    (unminedPre b ++ be4 p).take ((unminedPre b ++ be4 p).length - 4) =
    unminedPre b := by
  have h4 : (be4 p).length = 4 := beBytes_length 4 p
  have hl : (unminedPre b ++ be4 p).length - 4 = (unminedPre b).length := by
    simp [h4]
  rw [hl]
  exact List.take_left _ _

theorem mineLoop_spec (sha : Bytes → Bytes) :
    ∀ (fuel : Nat) (b b' : BlockData),
    mineLoop sha fuel b (unminedRaw b) = some b' →
    b'.difficulty = b.difficulty ∧
    lexLt (targetBytes b'.difficulty) (double_sha sha (unminedRaw b')) =
      false := by
  intro fuel
  induction fuel with
  | zero =>
    intro b b' h
    simp [mineLoop] at h
  | succ f ih =>
    intro b b' h
    rw [show mineLoop sha (f + 1) b (unminedRaw b) =
      (if lexLt (targetBytes b.difficulty)
          (double_sha sha (unminedRaw b)) then
        mineLoop sha f { b with padding := b.padding + 1 }
          ((unminedRaw b).take ((unminedRaw b).length - 4) ++
            be4 (b.padding + 1))
      else some b) from rfl] at h
    by_cases hc :
        lexLt (targetBytes b.difficulty) (double_sha sha (unminedRaw b)) =
          true
    · rw [if_pos hc] at h
      have harg :
          (unminedRaw b).take ((unminedRaw b).length - 4) ++
            be4 (b.padding + 1) =
          unminedRaw { b with padding := b.padding + 1 } := by
        show (unminedPre b ++ be4 b.padding).take
            ((unminedPre b ++ be4 b.padding).length - 4) ++
            be4 (b.padding + 1) = unminedPre b ++ be4 (b.padding + 1)
        rw [take_unminedPre]
      rw [harg] at h
      have hres := ih _ b' h
      simpa using hres
    · rw [if_neg hc] at h
      have hb : b = b' := by
        simpa using h
      subst hb
      exact ⟨rfl, by simpa using hc⟩

theorem mine_spec (sha : Bytes → Bytes) (b b' : BlockData) (fuel : Nat)
    (hwf : HashWf sha) (hd1 : 1 ≤ b.difficulty) (hd2 : b.difficulty ≤ 255)
    (hp : b.padding = 0) (h : mine sha b fuel = some b') :
    b'.checksum = some (double_sha sha (unminedRaw b')) ∧
    b'.difficulty = b.difficulty ∧
    beVal (double_sha sha (unminedRaw b')) < 2 ^ (256 - b.difficulty) := by
  have hb0 : ({ b with padding := 0 } : BlockData) = b := by
    cases b
    simp_all
  unfold mine at h
  rw [hb0] at h
  cases hml : mineLoop sha fuel b (unminedRaw b) with
  | none => rw [hml] at h; simp at h
  | some b2 =>
    rw [hml] at h
    have hb' : b' = { b2 with
        checksum := some (double_sha sha (unminedRaw b2)) } := by
      have := h
      simp at this
      exact this.symm
    have hspec := mineLoop_spec sha fuel b b2 hml
    have hum : unminedRaw b' = unminedRaw b2 := by rw [hb']; rfl
    have hdiff : b'.difficulty = b.difficulty := by
      rw [hb']
      exact hspec.1
    refine ⟨?_, hdiff, ?_⟩
    · rw [hb']
      rfl
    · rw [hum]
      have hexit := hspec.2
      -- translate the failed byte-wise comparison into the numeric bound
      have hdsha := hwf (sha (unminedRaw b2))
      have htlen : (targetBytes b2.difficulty).length = 32 :=
        beBytes_length _ _
      have htmem : ∀ x ∈ targetBytes b2.difficulty, x < 256 :=
        beBytes_mem_lt _ _
      have hlen : (targetBytes b2.difficulty).length =
          (double_sha sha (unminedRaw b2)).length := by
        rw [htlen]
        unfold double_sha
        exact hdsha.1.symm
      have hiff := lexLt_iff_beVal (targetBytes b2.difficulty)
        (double_sha sha (unminedRaw b2)) hlen htmem hdsha.2
      have hnotlt : ¬ beVal (targetBytes b2.difficulty) <
          beVal (double_sha sha (unminedRaw b2)) := by
        intro hcon
        have hlex := hiff.mpr hcon
        rw [hlex] at hexit
        simp at hexit
      have htv : beVal (targetBytes b2.difficulty) =
          2 ^ (256 - b2.difficulty) - 1 := by
        apply beVal_beBytes
        have h1 : b2.difficulty = b.difficulty := hspec.1
        have h2 : 2 ^ (256 - b2.difficulty) ≤ 2 ^ 255 := by
          apply Nat.pow_le_pow_right (by norm_num)
          rw [h1]
          omega
        calc 2 ^ (256 - b2.difficulty) - 1 < 2 ^ 256 := by
              have : (2 : Nat) ^ 255 < 2 ^ 256 :=
                Nat.pow_lt_pow_right (by norm_num) (by norm_num)
              omega
          _ = 256 ^ 32 := by norm_num
      rw [htv] at hnotlt
      have hpos : 0 < 2 ^ (256 - b2.difficulty) := Nat.pos_pow_of_pos _ (by norm_num)
      rw [← hspec.1]
      unfold double_sha at hnotlt ⊢
      omega

/-!  ## Block verification: what success guarantees, and the in-block fork
rejection -/

theorem blockVerify_ok (sha : Bytes → Bytes)
    (ec : Bytes → Bytes → Bytes → Bool) (s : State) (b : BlockData)
    (u : Unit) (h : blockVerify sha ec s b = .ok u) :
    b.checksum = some (double_sha sha (unminedRaw b)) ∧
    beVal (double_sha sha (unminedRaw b)) < 2 ^ (256 - b.difficulty) := by
  unfold blockVerify at h
  repeat' split at h
  all_goals simp_all

theorem treeConflict_of_count (l : List OpData) (ids : List Bytes)
    (r : Bytes) (hr : r ∈ ids)
    (hc : 2 ≤ l.countP (fun o2 => revIdM o2.prev == r)) :
    treeConflict l ids = true := by
  have hpos : 0 < l.countP (fun o2 => revIdM o2.prev == r) := by omega
  obtain ⟨o, ho, hpo⟩ := List.countP_pos_iff.mp hpos
  have hor : revIdM o.prev = r := by simpa using hpo
  unfold treeConflict
  rw [List.any_eq_true]
  refine ⟨o, ho, ?_⟩
  simp only [hor, decide_eq_true_eq]
  exact ⟨hr, hc⟩

theorem blockVerify_treeConflict (sha : Bytes → Bytes)
    (ec : Bytes → Bytes → Bytes → Bool) (s : State) (b : BlockData)
    (sg : Bytes) (l : List OpData)
    (hck : b.checksum = some (double_sha sha (unminedRaw b)))
    (hsg : b.sig = some sg)
    (hec : ec b.pkDer sg (unminedRaw b ++ double_sha sha (unminedRaw b)) =
      true)
    (hlim : MIN_OPERATIONS ≤ b.operationsLimit ∧
      b.operationsLimit ≤ MAX_OPERATIONS)
    (hn : MIN_OPERATIONS ≤ b.operationIds.length ∧
      b.operationIds.length ≤ b.operationsLimit)
    (hops : blockOperations sha s b = .ok l)
    (hconf : treeConflict l b.operationIds = true) :
    blockVerify sha ec s b =
      .error (.chainMsg "operations are creating tree inside the block") := by
  have hcknot : ¬ b.checksum ≠ some (double_sha sha (unminedRaw b)) := by
    simp [hck]
  simp only [blockVerify, hsg, hops, if_neg hcknot]
  rw [if_neg (by simp [hec])]
  rw [if_neg (by simp [hlim.1, hlim.2])]
  rw [if_neg (by simp [hn.1, hn.2])]
  rw [if_pos hconf]

theorem blockPut_of_verify_error (sha : Bytes → Bytes)
    (ec : Bytes → Bytes → Bytes → Bool) (s : State) (b : BlockData)
    (e : Err) (h : blockVerify sha ec s b = .error e) :
    blockPut sha ec s b = .error (e, s) := by
  unfold blockPut
  rw [h]

/-!  ## Head preservation: no phase of `__set_head` or `Block.put` writes the
head field; only the final assignment of `__set_head` does -/

theorem rewindOne_resHead (sha : Bytes → Bytes) (s : State)
    (after : List (Option Bytes)) (fuel : Nat) (uuid opId : Bytes) :
    resHead (rewindOne sha s after fuel uuid opId) = s.head := by
  unfold rewindOne
  repeat' split
  all_goals simp [resHead]

theorem rewindFold_resHead (sha : Bytes → Bytes)
    (after : List (Option Bytes)) (fuel : Nat) :
    ∀ (l : List (Bytes × Bytes)) (s : State),
    resHead (rewindFold sha after fuel s l) = s.head := by
  intro l
  induction l with
  | nil => intro s; rfl
  | cons p rest ih =>
    intro s
    obtain ⟨uuid, oid⟩ := p
    have h1 := rewindOne_resHead sha s after fuel uuid oid
    cases hr : rewindOne sha s after fuel uuid oid with
    | error es =>
      rw [hr] at h1
      simp only [rewindFold, hr]
      exact h1
    | ok s' =>
      rw [hr] at h1
      simp only [rewindFold, hr]
      rw [ih s']
      exact h1

theorem replayOps_resHead (sha : Bytes → Bytes) :
    ∀ (l : List Bytes) (s : State),
    resHead (replayOps sha s l) = s.head := by
  intro l
  induction l with
  | nil => intro s; rfl
  | cons oid rest ih =>
    intro s
    unfold replayOps
    repeat' split
    all_goals first
      | exact ih _
      | simp [resHead]

theorem replayFold_resHead (sha : Bytes → Bytes) :
    ∀ (l : List (Option Bytes)) (s : State),
    resHead (replayFold sha s l) = s.head := by
  intro l
  induction l with
  | nil => intro s; rfl
  | cons bidO rest ih =>
    intro s
    unfold replayFold
    cases bidO with
    | none => rfl
    | some bid =>
      cases hb : alGet s.blocks bid with
      | none => simp [hb, resHead]
      | some b =>
        have h1 := replayOps_resHead sha b.operationIds s
        cases hr : replayOps sha s b.operationIds with
        | error es =>
          rw [hr] at h1
          simp only [hb, hr]
          exact h1
        | ok s' =>
          rw [hr] at h1
          simp only [hb, hr]
          rw [ih s']
          exact h1

theorem setHead_error_head (sha : Bytes → Bytes) (fuel : Nat) (s : State)
    (nh : Option Bytes) (e : Err) (s' : State)
    (h : setHead sha fuel s nh = .error (e, s')) : s'.head = s.head := by
  unfold setHead at h
  cases hl : lca s fuel s.head nh with
  | error e0 =>
    simp only [hl] at h
    simp at h
    rw [← h.2]
  | ok lcaId =>
    simp only [hl] at h
    cases hc : backwardChain s fuel s.head lcaId with
    | error e0 =>
      simp only [hc] at h
      simp at h
      rw [← h.2]
    | ok ch =>
      simp only [hc] at h
      have hrw := rewindFold_resHead sha ch.dropLast fuel s.identifiers s
      cases hr : rewindFold sha ch.dropLast fuel s s.identifiers with
      | error es =>
        simp only [hr] at h
        rw [hr] at hrw
        simp at h
        rw [h] at hrw
        exact hrw
      | ok s1 =>
        simp only [hr] at h
        rw [hr] at hrw
        cases hc2 : backwardChain s1 fuel nh lcaId with
        | error e0 =>
          simp only [hc2] at h
          simp at h
          rw [← h.2]
          exact hrw
        | ok ch2 =>
          simp only [hc2] at h
          have hrp := replayFold_resHead sha ch2.dropLast.reverse s1
          cases hp : replayFold sha s1 ch2.dropLast.reverse with
          | error es =>
            simp only [hp] at h
            rw [hp] at hrp
            simp at h
            rw [h] at hrp
            exact Eq.trans hrp hrw
          | ok s2 =>
            simp only [hp] at h
            simp at h

theorem setHead_ok_head (sha : Bytes → Bytes) (fuel : Nat) (s : State)
    (nh : Option Bytes) (s' : State)
    (h : setHead sha fuel s nh = .ok s') : s'.head = nh := by
  unfold setHead at h
  repeat' split at h
  all_goals simp_all
  rw [← h]

theorem opAbstractPut_resHead (sha : Bytes → Bytes)
    (ec : Bytes → Bytes → Bytes → Bool) (s : State) (op : OpData) :
    resHead (opAbstractPut sha ec s op) = s.head ∧
    resChain (opAbstractPut sha ec s op) = s.chain := by
  unfold opAbstractPut
  repeat' split
  all_goals simp [resHead, resChain]

theorem opPutInBlock_resHead (sha : Bytes → Bytes)
    (ec : Bytes → Bytes → Bytes → Bool) (s : State) (bid : Bytes)
    (op : OpData) :
    resHead (opPutInBlock sha ec s bid op) = s.head ∧
    resChain (opPutInBlock sha ec s bid op) = s.chain := by
  unfold opPutInBlock
  repeat' split
  all_goals first
    | exact opAbstractPut_resHead sha ec s _
    | simp [resHead, resChain]

theorem opsPutFold_resHead (sha : Bytes → Bytes)
    (ec : Bytes → Bytes → Bytes → Bool) (bid : Bytes) :
    ∀ (l : List OpData) (s : State),
    resHead (opsPutFold sha ec s bid l) = s.head ∧
    resChain (opsPutFold sha ec s bid l) = s.chain := by
  intro l
  induction l with
  | nil => intro s; exact ⟨rfl, rfl⟩
  | cons op rest ih =>
    intro s
    have h1 := opPutInBlock_resHead sha ec s bid op
    cases hr : opPutInBlock sha ec s bid op with
    | error es =>
      rw [hr] at h1
      simp only [opsPutFold, hr]
      exact h1
    | ok s' =>
      rw [hr] at h1
      simp only [opsPutFold, hr]
      have h2 := ih s'
      exact ⟨h2.1.trans h1.1, h2.2.trans h1.2⟩

theorem addBlock_resHead (s : State) (bid prevId : Bytes) :
    resHead (addBlock s bid prevId) = s.head := by
  unfold addBlock
  repeat' split
  all_goals simp [resHead]

theorem addBlock_ok_pres (s : State) (bid prevId : Bytes) (s' : State)
    (h : addBlock s bid prevId = .ok s') : ChainPres s s' := by
  unfold addBlock at h
  cases hb : alGet s.chain bid with
  | some r0 => simp only [hb] at h; simp at h
  | none =>
    simp only [hb] at h
    cases hp : alGet s.chain prevId with
    | none => simp only [hp] at h; simp at h
    | some pr =>
      simp only [hp] at h
      cases hd : pr.depth with
      | none => simp only [hd] at h; simp at h
      | some d =>
        simp only [hd] at h
        have hss :
            ({ s with chain := alSet (alSet s.chain prevId ⟨some d, pr.previousId, sortLex (pr.nextIds ++ [bid])⟩) bid ⟨some (d + 1), some prevId, []⟩ } : State) = s' := by
          simpa using h
        have hchain :
            s'.chain = alSet (alSet s.chain prevId ⟨some d, pr.previousId, sortLex (pr.nextIds ++ [bid])⟩) bid ⟨some (d + 1), some prevId, []⟩ := by
          rw [← hss]
        intro k r hk
        have hkbid : k ≠ bid := by
          intro hkk
          rw [hkk, hb] at hk
          exact Option.noConfusion hk
        rw [hchain]
        rw [alGet_alSet_ne _ _ _ _ hkbid]
        by_cases hkp : k = prevId
        · subst hkp
          rw [alGet_alSet_self]
          rw [hp] at hk
          have hpr : pr = r := by injection hk
          subst hpr
          exact ⟨_, rfl, hd.symm⟩
        · rw [alGet_alSet_ne _ _ _ _ hkp]
          exact ⟨r, hk, rfl⟩

theorem blockPut_resHead (sha : Bytes → Bytes)
    (ec : Bytes → Bytes → Bytes → Bool) (s : State) (b : BlockData) :
    resHead (blockPut sha ec s b) = s.head := by
  unfold blockPut
  cases hv : blockVerify sha ec s b with
  | error e => simp [resHead]
  | ok u =>
    cases hpv : blockPutVerify s b with
    | error e => simp [resHead]
    | ok u2 =>
      cases hg : alGet s.blocks (blockIdOf sha b) with
      | some b0 => simp [hg, resHead]
      | none =>
        simp only [hg]
        set s1 : State :=
          { s with blocks := alSet s.blocks (blockIdOf sha b) b } with hs1
        have hab := addBlock_resHead s1 (blockIdOf sha b) (revIdM b.prev)
        cases ha : addBlock s1 (blockIdOf sha b) (revIdM b.prev) with
        | error es =>
          rw [ha] at hab
          simp only [ha]
          exact hab
        | ok s2 =>
          rw [ha] at hab
          cases ho : blockOperations sha s b with
          | error e =>
            simp only [ha, ho]
            exact hab
          | ok ops =>
            simp only [ha, ho]
            have h2 := opsPutFold_resHead sha ec (blockIdOf sha b) ops s2
            exact h2.1.trans hab

theorem blockPut_ok_pres (sha : Bytes → Bytes)
    (ec : Bytes → Bytes → Bytes → Bool) (s : State) (b : BlockData)
    (s' : State) (h : blockPut sha ec s b = .ok s') :
    s'.head = s.head ∧ ChainPres s s' := by
  have hh := blockPut_resHead sha ec s b
  rw [h] at hh
  refine ⟨hh, ?_⟩
  unfold blockPut at h
  cases hv : blockVerify sha ec s b with
  | error e => simp only [hv] at h; simp at h
  | ok u =>
    simp only [hv] at h
    cases hpv : blockPutVerify s b with
    | error e => simp only [hpv] at h; simp at h
    | ok u2 =>
      simp only [hpv] at h
      cases hg : alGet s.blocks (blockIdOf sha b) with
      | some b0 => simp only [hg] at h; simp at h
      | none =>
        simp only [hg] at h
        set s1 : State :=
          { s with blocks := alSet s.blocks (blockIdOf sha b) b } with hs1
        cases ha : addBlock s1 (blockIdOf sha b) (revIdM b.prev) with
        | error es => simp only [ha] at h; simp at h
        | ok s2 =>
          simp only [ha] at h
          have hpres1 : ChainPres s s2 := by
            have := addBlock_ok_pres s1 (blockIdOf sha b) (revIdM b.prev)
              s2 ha
            intro k r hk
            exact this k r hk
          cases ho : blockOperations sha s b with
          | error e => simp only [ho] at h; simp at h
          | ok ops =>
            simp only [ho] at h
            have h2 := opsPutFold_resHead sha ec (blockIdOf sha b) ops s2
            rw [h] at h2
            have hc2 : s'.chain = s2.chain := h2.2
            intro k r hk
            obtain ⟨r', hr', hdep⟩ := hpres1 k r hk
            refine ⟨r', ?_, hdep⟩
            rw [hc2]
            exact hr'

theorem maxDepth_of_pres (s s' : State) (hh : s'.head = s.head)
    (hw : headWf s = true) (hp : ChainPres s s') :
    s'.maxDepth = s.maxDepth ∧ headWf s' = true := by
  cases hs : s.head with
  | none =>
    constructor
    · unfold State.maxDepth maxDepthOf
      rw [hh, hs]
    · unfold headWf
      rw [hh, hs]
  | some hd =>
    have hw' : (alGet s.chain hd).isSome = true := by
      unfold headWf at hw
      rw [hs] at hw
      exact hw
    cases hg : alGet s.chain hd with
    | none => rw [hg] at hw'; simp at hw'
    | some r =>
      obtain ⟨r', hr', hdep⟩ := hp hd r hg
      constructor
      · unfold State.maxDepth maxDepthOf
        rw [hh, hs]
        show (match alGet s'.chain hd with
          | none => (-1 : Int)
          | some r => r.depth.getD (-1)) =
          (match alGet s.chain hd with
          | none => (-1 : Int)
          | some r => r.depth.getD (-1))
        rw [hr', hg]
        show r'.depth.getD (-1) = r.depth.getD (-1)
        rw [hdep]
      · unfold headWf
        rw [hh, hs]
        show (alGet s'.chain hd).isSome = true
        rw [hr']
        rfl

theorem putFold_error_head (sha : Bytes → Bytes)
    (ec : Bytes → Bytes → Bytes → Bool) :
    ∀ (l : List BlockData) (s : State) (d : Int) (h : Option Bytes)
    (e : Err) (s' : State),
    putFold sha ec s d h l = .error (e, s') → s'.head = s.head := by
  intro l
  induction l with
  | nil => intro s d h e s' hput; simp [putFold] at hput
  | cons b rest ih =>
    intro s d h e s' hput
    unfold putFold at hput
    have hbp := blockPut_resHead sha ec s b
    cases hb : blockPut sha ec s b with
    | error es =>
      rw [hb] at hbp
      simp only [hb] at hput
      simp at hput
      rw [hput] at hbp
      exact hbp
    | ok s0 =>
      rw [hb] at hbp
      simp only [hb] at hput
      cases hg : alGet s0.chain (blockIdOf sha b) with
      | none =>
        simp only [hg] at hput
        simp at hput
        rw [← hput.2]
        exact hbp
      | some r =>
        simp only [hg] at hput
        cases hd : r.depth with
        | none =>
          simp only [hd] at hput
          simp at hput
          rw [← hput.2]
          exact hbp
        | some dep =>
          simp only [hd] at hput
          by_cases hcmp : dep > d
          · rw [if_pos hcmp] at hput
            exact (ih s0 dep (some (blockIdOf sha b)) e s' hput).trans hbp
          · rw [if_neg hcmp] at hput
            exact (ih s0 d h e s' hput).trans hbp

theorem putFold_spec (sha : Bytes → Bytes)
    (ec : Bytes → Bytes → Bytes → Bool) :
    ∀ (l : List BlockData) (s : State) (d : Int) (hh : Option Bytes)
    (s1 : State) (d1 : Int) (h1 : Option Bytes),
    headWf s = true →
    putFold sha ec s d hh l = .ok (s1, d1, h1) →
    s1.head = s.head ∧ s1.maxDepth = s.maxDepth ∧ headWf s1 = true ∧
    ChainPres s s1 ∧
    ((h1 = hh ∧ d1 = d) ∨
      (d1 > d ∧ ∃ b ∈ l, h1 = some (blockIdOf sha b) ∧
        ∃ r, alGet s1.chain (blockIdOf sha b) = some r ∧
          r.depth = some d1)) := by
  intro l
  induction l with
  | nil =>
    intro s d hh s1 d1 h1 hw hput
    simp [putFold] at hput
    obtain ⟨hs, hd, hh1⟩ := hput
    subst hs; subst hd; subst hh1
    exact ⟨rfl, rfl, hw, fun k r hk => ⟨r, hk, rfl⟩, Or.inl ⟨rfl, rfl⟩⟩
  | cons b rest ih =>
    intro s d hh s1 d1 h1 hw hput
    unfold putFold at hput
    cases hb : blockPut sha ec s b with
    | error es => simp only [hb] at hput; simp at hput
    | ok s0 =>
      simp only [hb] at hput
      obtain ⟨hhead0, hpres0⟩ := blockPut_ok_pres sha ec s b s0 hb
      obtain ⟨hmax0, hw0⟩ := maxDepth_of_pres s s0 hhead0 hw hpres0
      cases hg : alGet s0.chain (blockIdOf sha b) with
      | none => simp only [hg] at hput; simp at hput
      | some r =>
        simp only [hg] at hput
        cases hdep : r.depth with
        | none => simp only [hdep] at hput; simp at hput
        | some dep =>
          simp only [hdep] at hput
          by_cases hcmp : dep > d
          · rw [if_pos hcmp] at hput
            obtain ⟨ha, hb2, hc, hpres, hdisj⟩ :=
              ih s0 dep (some (blockIdOf sha b)) s1 d1 h1 hw0 hput
            refine ⟨ha.trans hhead0, hb2.trans hmax0, hc,
              fun k rr hk => ?_, ?_⟩
            · obtain ⟨r', hr', hd'⟩ := hpres0 k rr hk
              obtain ⟨r'', hr'', hd''⟩ := hpres k r' hr'
              exact ⟨r'', hr'', hd''.trans hd'⟩
            · rcases hdisj with ⟨he1, he2⟩ | ⟨hgt, bb, hbb, hbid, rr, hrr, hrd⟩
              · subst he1; subst he2
                refine Or.inr ⟨hcmp, b, by simp, rfl, ?_⟩
                obtain ⟨r', hr', hd'⟩ := hpres _ r hg
                exact ⟨r', hr', by rw [hd', hdep]⟩
              · exact Or.inr ⟨lt_trans hcmp hgt, bb, by simp [hbb],
                  hbid, rr, hrr, hrd⟩
          · rw [if_neg hcmp] at hput
            obtain ⟨ha, hb2, hc, hpres, hdisj⟩ :=
              ih s0 d hh s1 d1 h1 hw0 hput
            refine ⟨ha.trans hhead0, hb2.trans hmax0, hc,
              fun k rr hk => ?_, ?_⟩
            · obtain ⟨r', hr', hd'⟩ := hpres0 k rr hk
              obtain ⟨r'', hr'', hd''⟩ := hpres k r' hr'
              exact ⟨r'', hr'', hd''.trans hd'⟩
            · rcases hdisj with ⟨he1, he2⟩ | ⟨hgt, bb, hbb, hbid, rr, hrr, hrd⟩
              · exact Or.inl ⟨he1, he2⟩
              · exact Or.inr ⟨hgt, bb, by simp [hbb], hbid, rr, hrr, hrd⟩

/-!  ## The constructor scan links every block under its parent record -/

theorem rootChild_alSet_ne (m : List (Bytes × ChainRec)) (k : Bytes)
    (v : ChainRec) (g : Bytes) (hk : ¬ k = ROOT) (h : RootChild m g) :
    RootChild (alSet m k v) g := by
  obtain ⟨r, hr, hg⟩ := h
  refine ⟨r, ?_, hg⟩
  rw [alGet_alSet_ne m k ROOT v (fun hh => hk hh.symm)]
  exact hr

theorem scanStep_preserves (m : List (Bytes × ChainRec)) (p : Bytes × Bytes)
    (g : Bytes) (h : RootChild m g) : RootChild (scanStep m p) g := by
  obtain ⟨r, hr, hg⟩ := h
  obtain ⟨rid, prev⟩ := p
  unfold scanStep
  simp only
  have hstage1 : ∃ r1, alGet (match alGet m prev with
      | some r2 => alSet m prev { r2 with nextIds := r2.nextIds ++ [rid] }
      | none => alSet m prev ⟨none, none, [rid]⟩) ROOT = some r1 ∧
      g ∈ r1.nextIds := by
    by_cases hpr : prev = ROOT
    · subst hpr
      rw [hr]
      refine ⟨{ r with nextIds := r.nextIds ++ [rid] }, ?_, ?_⟩
      · exact alGet_alSet_self m ROOT _
      · simp [hg]
    · cases hmp : alGet m prev with
      | some r2 =>
        refine ⟨r, ?_, hg⟩
        rw [alGet_alSet_ne _ _ _ _ (fun hh => hpr hh.symm)]
        exact hr
      | none =>
        refine ⟨r, ?_, hg⟩
        rw [alGet_alSet_ne _ _ _ _ (fun hh => hpr hh.symm)]
        exact hr
  obtain ⟨r1, hr1, hg1⟩ := hstage1
  by_cases hrid : rid = ROOT
  · subst hrid
    rw [hr1]
    exact ⟨{ r1 with previousId := some prev }, alGet_alSet_self _ ROOT _,
      hg1⟩
  · cases hm1 : alGet (match alGet m prev with
        | some r2 => alSet m prev { r2 with nextIds := r2.nextIds ++ [rid] }
        | none => alSet m prev ⟨none, none, [rid]⟩) rid with
    | some r3 => exact rootChild_alSet_ne _ rid _ g hrid ⟨r1, hr1, hg1⟩
    | none => exact rootChild_alSet_ne _ rid _ g hrid ⟨r1, hr1, hg1⟩

theorem scanStep_establishes (m : List (Bytes × ChainRec)) (g : Bytes) :
    RootChild (scanStep m (g, ROOT)) g := by
  unfold scanStep
  simp only
  have hstage1 : ∃ r1, alGet (match alGet m ROOT with
      | some r2 => alSet m ROOT { r2 with nextIds := r2.nextIds ++ [g] }
      | none => alSet m ROOT ⟨none, none, [g]⟩) ROOT = some r1 ∧
      g ∈ r1.nextIds := by
    cases hmp : alGet m ROOT with
    | some r2 =>
      refine ⟨{ r2 with nextIds := r2.nextIds ++ [g] }, ?_, by simp⟩
      exact alGet_alSet_self m ROOT _
    | none =>
      refine ⟨⟨none, none, [g]⟩, ?_, by simp⟩
      exact alGet_alSet_self m ROOT _
  obtain ⟨r1, hr1, hg1⟩ := hstage1
  by_cases hrid : g = ROOT
  · subst hrid
    rw [hr1]
    exact ⟨{ r1 with previousId := some ROOT }, alGet_alSet_self _ ROOT _,
      hg1⟩
  · cases hm1 : alGet (match alGet m ROOT with
        | some r2 => alSet m ROOT { r2 with nextIds := r2.nextIds ++ [g] }
        | none => alSet m ROOT ⟨none, none, [g]⟩) g with
    | some r3 => exact rootChild_alSet_ne _ g _ g hrid ⟨r1, hr1, hg1⟩
    | none => exact rootChild_alSet_ne _ g _ g hrid ⟨r1, hr1, hg1⟩

theorem foldl_scanStep_preserves (g : Bytes) :
    ∀ (l : List (Bytes × Bytes)) (m : List (Bytes × ChainRec)),
    RootChild m g → RootChild (l.foldl scanStep m) g := by
  intro l
  induction l with
  | nil => intro m h; exact h
  | cons p rest ih =>
    intro m h
    exact ih (scanStep m p) (scanStep_preserves m p g h)

theorem initScan_rootChild (l : List (Bytes × Bytes)) (g : Bytes)
    (h : (g, ROOT) ∈ l) : RootChild (initScan l) g := by
  obtain ⟨l1, l2, rfl⟩ := List.append_of_mem h
  unfold initScan
  rw [List.foldl_append]
  show RootChild (List.foldl scanStep (scanStep (List.foldl scanStep [] l1)
    (g, ROOT)) l2) g
  exact foldl_scanStep_preserves g l2 _
    (scanStep_establishes (List.foldl scanStep [] l1) g)

theorem initDepthFix_rootChild (m : List (Bytes × ChainRec)) (g : Bytes)
    (h : RootChild m g) :
    ∃ m' r, initDepthFix m = .ok m' ∧ alGet m' ROOT = some r ∧
      g ∈ r.nextIds := by
  obtain ⟨r0, hr0, hg0⟩ := h
  unfold initDepthFix
  rw [alGet_isEmpty_false m ROOT r0 hr0]
  rw [hr0]
  simp only [Bool.false_eq_true, if_false]
  refine ⟨_, { r0 with depth := some 0 }, rfl, ?_, hg0⟩
  exact alGet_alSet_self m ROOT _

/-- The concrete hash stand-in is a well-formed 32-byte digest. -/
theorem shaC_hashWf : HashWf shaC :=
  fun _ => ⟨beBytes_length _ _, beBytes_mem_lt _ _⟩

/-!  ## The claims -/

/-- C1 (amended): whenever `set_head(new_head_id)` raises — in particular
`Tree("inconsistency of operations")` or `Tree("multiple minting of the
identifier")` during the replay phase — the head afterwards still equals the
old head (the head write is the last statement). The identifier store,
however, is NOT rolled back: partial rewind/replay updates remain (see the
counterexample). -/
theorem c1_set_head_error_preserves_head (sha : Bytes → Bytes) (fuel : Nat)
    (s : State) (nh : Option Bytes) (e : Err) (s' : State)
    (h : setHead sha fuel s nh = .error (e, s')) : s'.head = s.head :=
  setHead_error_head sha fuel s nh e s' h

/-- C1 witness: a concrete failing `set_head` (replay hits a non-minting
operation for an unmapped uuid) whose resulting state keeps the old head. -/
theorem c1_set_head_error_preserves_head_witness :
    setHead shaC 20 cS1 (some cB1id) =
      .error (.treeMsg "multiple minting of the identifier", cS1x) ∧
    cS1x.head = cS1.head :=
  ⟨by decide, c1_set_head_error_preserves_head shaC 20 cS1 (some cB1id)
    (.treeMsg "multiple minting of the identifier") cS1x (by decide)⟩

/-- C1 counterexample: the same failing `set_head` leaves the identifier
store different from its state before the call — the minting operation
replayed before the error persists — refuting the byte-for-byte
preservation the claim states. -/
theorem c1_partial_identifier_updates_cex :
    setHead shaC 20 cS1 (some cB1id) =
      .error (.treeMsg "multiple minting of the identifier", cS1x) ∧
    cS1x.identifiers ≠ cS1.identifiers := by decide

/-- C2: block verification succeeds only if the checksum equals
`double_sha(unmined_raw)` AND that value, read as a 256-bit big-endian
integer, is below `2^(256 - difficulty)`; in particular a block whose
checksum is correct but misses the target is rejected. -/
theorem c2_block_verify_checksum_and_target (sha : Bytes → Bytes)
    (ec : Bytes → Bytes → Bytes → Bool) (s : State) (b : BlockData) :
    (∀ u, blockVerify sha ec s b = .ok u →
      b.checksum = some (double_sha sha (unminedRaw b)) ∧
      beVal (double_sha sha (unminedRaw b)) < 2 ^ (256 - b.difficulty)) ∧
    (b.checksum = some (double_sha sha (unminedRaw b)) →
      ¬ beVal (double_sha sha (unminedRaw b)) < 2 ^ (256 - b.difficulty) →
      ∀ u, blockVerify sha ec s b ≠ .ok u) := by
  constructor
  · intro u h
    exact blockVerify_ok sha ec s b u h
  · intro hck hnl u h
    exact hnl (blockVerify_ok sha ec s b u h).2

/-- C2 witness: a concretely verifying block, whose checksum therefore
matches and meets the target. -/
theorem c2_block_verify_checksum_and_target_witness :
    blockVerify shaC ecTrue cS3 cBlock3 = .ok () ∧
    (cBlock3.checksum = some (double_sha shaC (unminedRaw cBlock3)) ∧
      beVal (double_sha shaC (unminedRaw cBlock3)) <
        2 ^ (256 - cBlock3.difficulty)) :=
  ⟨by decide,
    (c2_block_verify_checksum_and_target shaC ecTrue cS3 cBlock3).1 ()
      (by decide)⟩

/-- C3 (amended): a block containing two operations with the same
`previous_operation_rev` id, where that shared id is itself the id of an
operation listed in the block, fails to `put` with `Chain("operations are
creating tree inside the block")`, and neither the block nor its operations
enter the store (the error carries the state unchanged). Two minting
operations share the all-zero previous id but are accepted, because the
check restricts the multiset to previous ids present in the block — see the
counterexample. -/
theorem c3_in_block_fork_rejected (sha : Bytes → Bytes)
    (ec : Bytes → Bytes → Bytes → Bool) (s : State) (b : BlockData)
    (sg : Bytes) (l : List OpData) (r : Bytes)
    (hck : b.checksum = some (double_sha sha (unminedRaw b)))
    (hsg : b.sig = some sg)
    (hec : ec b.pkDer sg (unminedRaw b ++ double_sha sha (unminedRaw b)) =
      true)
    (hlim : MIN_OPERATIONS ≤ b.operationsLimit ∧
      b.operationsLimit ≤ MAX_OPERATIONS)
    (hn : MIN_OPERATIONS ≤ b.operationIds.length ∧
      b.operationIds.length ≤ b.operationsLimit)
    (hops : blockOperations sha s b = .ok l)
    (hr : r ∈ b.operationIds)
    (hc : 2 ≤ l.countP (fun o2 => revIdM o2.prev == r)) :
    blockPut sha ec s b =
      .error (.chainMsg "operations are creating tree inside the block",
        s) :=
  blockPut_of_verify_error sha ec s b _
    (blockVerify_treeConflict sha ec s b sg l hck hsg hec hlim hn hops
      (treeConflict_of_count l b.operationIds r hr hc))

/-- C3 witness: a block holding a minting operation and two conflicting
successors of it is rejected and the state is untouched. -/
theorem c3_in_block_fork_rejected_witness :
    blockPut shaC ecTrue cSW cBlockW =
      .error (.chainMsg "operations are creating tree inside the block",
        cSW) :=
  c3_in_block_fork_rejected shaC ecTrue cSW cBlockW [2]
    [cOpW1, cOpW2, cOpW3] (opIdOf shaC cOpW1) (by decide) (by decide)
    (by decide) (by decide) (by decide) (by decide) (by decide) (by decide)

/-- C3 counterexample: two distinct minting operations have equal previous
ids (both the all-zero sentinel) and both ids are listed in the block, yet
`put` succeeds — the claim as stated (any two equal previous ids) is false;
the check only fires when the shared id is listed in the block. -/
theorem c3_two_minting_ops_accepted_cex :
    revIdM cOp31.prev = revIdM cOp32.prev ∧
    opIdOf shaC cOp31 ∈ cBlock3.operationIds ∧
    opIdOf shaC cOp32 ∈ cBlock3.operationIds ∧
    cOp31 ≠ cOp32 ∧
    exOk (blockPut shaC ecTrue cS3 cBlock3) = true := by decide

/-- C4: within one `update_blocks` invocation the head changes at most
once, only after all blocks have been put (the single `set_head` call is
the last step, fed by the completed `putFold`), and only when some newly
put block's depth strictly exceeds the `max_depth` recorded before the
invocation; on a tie the head is left unchanged, and on any error the head
is also unchanged. -/
theorem c4_update_blocks_single_head_move (sha : Bytes → Bytes)
    (ec : Bytes → Bytes → Bytes → Bool) (fuel : Nat) (s : State)
    (bs : List BlockData) (hw : headWf s = true) :
    (∀ s', updateBlocks sha ec fuel s bs = .ok s' →
      ∃ s1 d h, putFold sha ec s s.maxDepth s.head bs = .ok (s1, d, h) ∧
        s1.head = s.head ∧ s1.maxDepth = s.maxDepth ∧
        ((d > s.maxDepth ∧ setHead sha fuel s1 h = .ok s' ∧ s'.head = h ∧
          ∃ b ∈ bs, h = some (blockIdOf sha b) ∧
            ∃ r, alGet s1.chain (blockIdOf sha b) = some r ∧
              r.depth = some d) ∨
         (¬ d > s.maxDepth ∧ s' = s1 ∧ s'.head = s.head))) ∧
    (∀ e s', updateBlocks sha ec fuel s bs = .error (e, s') →
      s'.head = s.head) := by
  constructor
  · intro s' hub
    unfold updateBlocks at hub
    cases hp : putFold sha ec s s.maxDepth s.head bs with
    | error es => simp only [hp] at hub; simp at hub
    | ok t =>
      obtain ⟨s1, d, h⟩ := t
      simp only [hp] at hub
      obtain ⟨hh1, hm1, hw1, hpres, hdisj⟩ :=
        putFold_spec sha ec bs s s.maxDepth s.head s1 d h hw hp
      refine ⟨s1, d, h, rfl, hh1, hm1, ?_⟩
      by_cases hc : d > s1.maxDepth
      · rw [if_pos hc] at hub
        have hgt : d > s.maxDepth := by rw [← hm1]; exact hc
        rcases hdisj with ⟨he1, he2⟩ | ⟨hgt2, b, hb, hbid, r, hr, hrd⟩
        · exfalso; omega
        · exact Or.inl ⟨hgt, hub, setHead_ok_head sha fuel s1 h s' hub,
            b, hb, hbid, r, hr, hrd⟩
      · rw [if_neg hc] at hub
        simp at hub
        have hns : ¬ d > s.maxDepth := by rw [← hm1]; exact hc
        refine Or.inr ⟨hns, hub.symm, ?_⟩
        rw [← hub]
        exact hh1
  · intro e s' hub
    unfold updateBlocks at hub
    cases hp : putFold sha ec s s.maxDepth s.head bs with
    | error es =>
      simp only [hp] at hub
      simp at hub
      rw [hub] at hp
      exact putFold_error_head sha ec bs s s.maxDepth s.head e s' hp
    | ok t =>
      obtain ⟨s1, d, h⟩ := t
      simp only [hp] at hub
      by_cases hc : d > s1.maxDepth
      · rw [if_pos hc] at hub
        have h1 := setHead_error_head sha fuel s1 h e s' hub
        have h2 :=
          (putFold_spec sha ec bs s s.maxDepth s.head s1 d h hw hp).1
        exact h1.trans h2
      · rw [if_neg hc] at hub
        simp at hub

/-- C4 witness: an empty batch on the freshly initialised chain — the fold
returns the unchanged state, the tie branch fires and the head stays. -/
theorem c4_update_blocks_single_head_move_witness :
    ∃ s1 d h,
      putFold shaC ecTrue cS4 cS4.maxDepth cS4.head [] = .ok (s1, d, h) ∧
      s1.head = cS4.head ∧ s1.maxDepth = cS4.maxDepth ∧
      ((d > cS4.maxDepth ∧ setHead shaC 10 s1 h = .ok cS4 ∧
        cS4.head = h ∧
        ∃ b ∈ ([] : List BlockData), h = some (blockIdOf shaC b) ∧
          ∃ r, alGet s1.chain (blockIdOf shaC b) = some r ∧
            r.depth = some d) ∨
       (¬ d > cS4.maxDepth ∧ cS4 = s1 ∧ cS4.head = cS4.head)) :=
  (c4_update_blocks_single_head_move shaC ecTrue 10 cS4 [] (by decide)).1
    cS4 (by decide)

/-- C5: for an operation whose predecessor resolves in the store and shares
its uuid, `verify` raises `Ownership` exactly when the signer's DER key is
not among the predecessor's owners, and succeeds (given a valid signature
and pairwise-distinct owners) when it is. -/
theorem c5_ownership_check (ec : Bytes → Bytes → Bytes → Bool) (s : State)
    (op : OpData) (pid : Bytes) (pred : OpData)
    (hsig : opVerifySignature ec op = .ok ())
    (hnd : op.ownersDer.Nodup)
    (hprev : op.prev = some pid)
    (hpred : alGet s.ops pid = some pred)
    (huuid : pred.uuid = op.uuid) :
    (opVerify ec s op = .error .ownership ↔
      op.pkDer ∉ pred.ownersDer) ∧
    (op.pkDer ∈ pred.ownersDer → opVerify ec s op = .ok ()) := by
  unfold opVerify
  simp only [hsig]
  rw [if_neg (not_not_intro hnd)]
  simp only [hprev, hpred]
  by_cases hmem : op.pkDer ∈ pred.ownersDer
  · rw [if_neg (not_not_intro hmem)]
    rw [if_neg (not_not_intro huuid.symm)]
    exact ⟨by simp [hmem], fun _ => rfl⟩
  · rw [if_pos hmem]
    exact ⟨by simp [hmem], fun hcon => absurd hcon hmem⟩

/-- C5 witness: the predecessor owns the signer's key, so verification
succeeds, and the `Ownership` characterisation holds concretely. -/
theorem c5_ownership_check_witness :
    (opVerify ecTrue cS5 cOp5 = .error .ownership ↔
      cOp5.pkDer ∉ cPred5.ownersDer) ∧
    (cOp5.pkDer ∈ cPred5.ownersDer → opVerify ecTrue cS5 cOp5 = .ok ()) :=
  c5_ownership_check ecTrue cS5 cOp5 cPidD cPred5 (by decide) (by decide)
    (by decide) (by decide) (by decide)

/-- C6: the null revision's id accessor yields the all-zero 32 bytes, that
value is the block tree's root key, and every stored block whose previous
id is the sentinel is linked as a child of the root record by the
constructor scan (the depth fix preserves the link). -/
theorem c6_null_revision_id_and_genesis_link :
    revIdM none = List.replicate 32 0 ∧ ROOT = List.replicate 32 0 ∧
    ∀ (l : List (Bytes × Bytes)) (g : Bytes), (g, ROOT) ∈ l →
      ∃ m r, initDepthFix (initScan l) = .ok m ∧
        alGet m ROOT = some r ∧ g ∈ r.nextIds := by
  refine ⟨rfl, rfl, ?_⟩
  intro l g hmem
  exact initDepthFix_rootChild (initScan l) g (initScan_rootChild l g hmem)

/-- C6 witness: one genesis block in the store ends up as a child of the
sentinel root record. -/
theorem c6_null_revision_id_and_genesis_link_witness :
    ∃ m r, initDepthFix (initScan [(cB6, ROOT)]) = .ok m ∧
      alGet m ROOT = some r ∧ cB6 ∈ r.nextIds :=
  c6_null_revision_id_and_genesis_link.2.2 [(cB6, ROOT)] cB6 (by decide)

/-- C7 (amended): for a block with `1 ≤ difficulty ≤ 255` WHOSE PADDING IS
0 WHEN `mine()` IS CALLED (as after construction), when `mine` returns, the
checksum equals `double_sha(unmined_raw)` and its 256-bit big-endian value
is strictly below `2^(256 - difficulty)` — the byte-wise comparison of the
loop agrees with the numeric comparison (`lexLt_iff_beVal`). With a nonzero
initial padding the first loop test reads a stale buffer and the target
guarantee can fail (see the counterexample). -/
theorem c7_mine_postcondition (sha : Bytes → Bytes) (b b' : BlockData)
    (fuel : Nat) (hwf : HashWf sha) (hd1 : 1 ≤ b.difficulty)
    (hd2 : b.difficulty ≤ 255) (hp : b.padding = 0)
    (h : mine sha b fuel = some b') :
    b'.checksum = some (double_sha sha (unminedRaw b')) ∧
    b'.difficulty = b.difficulty ∧
    beVal (double_sha sha (unminedRaw b')) < 2 ^ (256 - b.difficulty) :=
  mine_spec sha b b' fuel hwf hd1 hd2 hp h

/-- C7 witness: mining a freshly constructed block at difficulty 1 with the
executable hash stand-in satisfies the postcondition concretely. -/
theorem c7_mine_postcondition_witness :
    cMined7w.checksum = some (double_sha shaC (unminedRaw cMined7w)) ∧
    cMined7w.difficulty = cBlock7w.difficulty ∧
    beVal (double_sha shaC (unminedRaw cMined7w)) <
      2 ^ (256 - cBlock7w.difficulty) :=
  c7_mine_postcondition shaC cBlock7w cMined7w 1 shaC_hashWf (by decide)
    (by decide) (by decide) (by decide)

/-- C7 counterexample: a block whose padding is 1 when `mine()` is called,
at difficulty 255. The loop's first test hashes the stale buffer (built
from padding 1) while the field was reset to 0; the hash function accepts
that buffer at once, so the final checksum — recomputed over the padding-0
bytes — does NOT meet the target: the claim as stated over every block is
false. -/
theorem c7_stale_padding_cex :
    1 ≤ cBlock7.difficulty ∧ cBlock7.difficulty ≤ 255 ∧
    cBlock7.padding ≠ 0 ∧
    mine shaCex cBlock7 5 = some cMined7 ∧
    cMined7.checksum = some cBig ∧
    ¬ beVal cBig < 2 ^ (256 - cBlock7.difficulty) := by decide

/-- C8: the round-trip law fails on the code as written — `unsigned_raw`
prefixes the address with its CHARACTER count but writes its UTF-8 bytes,
while the reader consumes a BYTE-counted field and strictly decodes it. On
a verifiable signed operation whose address is the single character U+00E9
(two UTF-8 bytes), `from_raw(o.raw())` raises instead of reproducing `o`:
the writer contradicts the codec its own reader implements. -/
theorem c8_utf8_round_trip_bug :
    opVerify ecTrue cS8 cOp8 = .ok () ∧
    opFromRaw ecTrue cS8 (opRawBytes cOp8) = .error .unicode := by decide

/-- C9: with a row already stored under the operation's id, the
persistence-layer put raises `Duplication` exactly when the stored row's
`containing_blocks` tuple equals the in-memory one; otherwise it silently
overwrites the row — `Operation.put` is an update, not an insert-only
operation. -/
theorem c9_operation_put_overwrite (sha : Bytes → Bytes)
    (ec : Bytes → Bytes → Bytes → Bool) (s : State) (op stored : OpData)
    (hv : opVerify ec s op = .ok ())
    (hpv : opPutVerify sha s op = .ok ())
    (hst : alGet s.ops (opIdOf sha op) = some stored) :
    (stored.containing = op.containing →
      opAbstractPut sha ec s op = .error (.duplication, s)) ∧
    (stored.containing ≠ op.containing →
      opAbstractPut sha ec s op =
        .ok { s with ops := alSet s.ops (opIdOf sha op) op }) := by
  unfold opAbstractPut
  simp only [hv, hpv]
  unfold opIsInDb
  simp only [hst]
  constructor
  · intro heq
    rw [if_pos (by simp [heq])]
  · intro hne
    rw [if_neg (by simp [hne])]

/-- C9 witness: the stored row differs in `containing_blocks`, so the put
overwrites instead of raising. -/
theorem c9_operation_put_overwrite_witness :
    (cStored9.containing = cOp9.containing →
      opAbstractPut shaC ecTrue cS9 cOp9 = .error (.duplication, cS9)) ∧
    (cStored9.containing ≠ cOp9.containing →
      opAbstractPut shaC ecTrue cS9 cOp9 =
        .ok { cS9 with ops := alSet cS9.ops (opIdOf shaC cOp9) cOp9 }) :=
  c9_operation_put_overwrite shaC ecTrue cS9 cOp9 cStored9 (by decide)
    (by decide) (by decide)

/-- C10 (amended): on an empty store the constructor produces a map with
exactly the sentinel record (depth 0, no parent, no children) — but the
BFS then moves the head to the sentinel itself, so `head = ROOT` (not the
null value) and `max_depth = 0` (not `-1`); the `max_depth` accessor
returns `-1` exactly when the head is unset. -/
theorem c10_blockchain_init_empty :
    blockChainInit [] 3 = .ok ([(ROOT, ⟨some 0, none, []⟩)], some ROOT) ∧
    maxDepthOf [(ROOT, ⟨some 0, none, []⟩)] (some ROOT) = 0 ∧
    ∀ m : List (Bytes × ChainRec), maxDepthOf m none = -1 :=
  ⟨by decide, by decide, fun _ => rfl⟩

/-- C10 counterexample: after construction on an empty store the head is
`some ROOT`, not the null value, and `max_depth` is 0, not `-1`. -/
theorem c10_head_not_null_cex :
    blockChainInit [] 3 = .ok ([(ROOT, ⟨some 0, none, []⟩)], some ROOT) ∧
    some ROOT ≠ (none : Option Bytes) ∧
    maxDepthOf [(ROOT, ⟨some 0, none, []⟩)] (some ROOT) ≠ -1 := by decide

end PMPI
